import Mathlib

/-!
Verification of the pmw (pin-my-workflows) resolution, policy and rewrite
engines against src/main.go.  The source file contains two variants of the
program; definitions below note which variant (by line range) they embed.
Strings are modelled as lists of characters (`Str`).
-/

set_option maxRecDepth 4000

namespace PMW

abbrev Str := List Char

def str (s : String) : Str := s.toList

/-! ### VersionComparer: compareVersions (src/main.go:433-455) -/

/-- Go strings.Split(v, ".") — splitting a string on the separator ".". -/
def splitOnDot : Str → List Str
  | [] => [[]]
  | c :: cs =>
    if c = '.' then [] :: splitOnDot cs
    else
      match splitOnDot cs with
      | [] => [[c]]
      | p :: ps => (c :: p) :: ps

def isDigitChar (c : Char) : Bool := 48 ≤ c.toNat && c.toNat ≤ 57

def digitVal (c : Char) : Int := (c.toNat : Int) - 48

def readDigits : Str → Int → Int
  | [], acc => acc
  | c :: cs, acc => if isDigitChar c then readDigits cs (acc * 10 + digitVal c) else acc

def headIsDigit : Str → Bool
  | [] => false
  | c :: _ => isDigitChar c

/-- fmt.Sscanf(part, "%d", &num) semantics as used in compareVersions:
leading white space is skipped, an optional sign is accepted, the leading
run of decimal digits is read; if nothing parses, num keeps its zero value. -/
def parseComponent (s : Str) : Int :=
  let t := s.dropWhile Char.isWhitespace
  match t with
  | '-' :: rest => if headIsDigit rest then - readDigits rest 0 else 0
  | '+' :: rest => if headIsDigit rest then readDigits rest 0 else 0
  | _ => if headIsDigit t then readDigits t 0 else 0

/-- The comparison loop of compareVersions (src/main.go:440-453) once the
left list is exhausted: remaining left components read as 0. -/
def cmpZeroLeft : List Int → Int
  | [] => 0
  | y :: ys => if (0:Int) > y then 1 else if (0:Int) < y then -1 else cmpZeroLeft ys

/-- The comparison loop of compareVersions (src/main.go:440-453): indices past
the end of the shorter component list read as 0. -/
def cmpPadded : List Int → List Int → Int
  | [], ys => cmpZeroLeft ys
  | x :: xs, [] => if x > (0:Int) then 1 else if x < (0:Int) then -1 else cmpPadded xs []
  | x :: xs, y :: ys => if x > y then 1 else if x < y then -1 else cmpPadded xs ys

/-- compareVersions (src/main.go:433-455). -/
def compareVersions (v1 v2 : Str) : Int :=
  cmpPadded ((splitOnDot v1).map parseComponent) ((splitOnDot v2).map parseComponent)

/-- Modelled from the spec's words for VersionComparer (spec §4.2): split each
version on ".", parse each component as a number (non-numeric parsing as 0),
pad the shorter list with trailing zeros, and compare lexicographically. -/
def padTo (n : Nat) (l : List Int) : List Int := l ++ List.replicate (n - l.length) 0

def lexCmpInt : List Int → List Int → Int
  | x :: xs, y :: ys => if x > y then 1 else if x < y then -1 else lexCmpInt xs ys
  | _, _ => 0

def versionCompareSpec (v1 v2 : Str) : Int :=
  let p1 := (splitOnDot v1).map parseComponent
  let p2 := (splitOnDot v2).map parseComponent
  lexCmpInt (padTo (max p1.length p2.length) p1) (padTo (max p1.length p2.length) p2)

lemma padTo_nil (n : Nat) : padTo n [] = List.replicate n 0 := by
  simp [padTo]

lemma padTo_cons (n : Nat) (x : Int) (xs : List Int) :
    padTo (n + 1) (x :: xs) = x :: padTo n xs := by
  simp [padTo, List.replicate, Nat.succ_sub_succ]

lemma cmpZeroLeft_eq_lex :
    ∀ b : List Int, cmpZeroLeft b = lexCmpInt (List.replicate b.length 0) b := by
  intro b
  induction b with
  | nil => simp [cmpZeroLeft, lexCmpInt]
  | cons y ys ih =>
    rw [cmpZeroLeft]
    rw [show (y :: ys).length = ys.length + 1 from rfl, List.replicate_succ, lexCmpInt]
    rw [ih]

lemma cmpPadded_eq_lex :
    ∀ a b : List Int,
      cmpPadded a b = lexCmpInt (padTo (max a.length b.length) a) (padTo (max a.length b.length) b) := by
  intro a
  induction a with
  | nil =>
    intro b
    have h1 : padTo (max (List.length ([] : List Int)) b.length) [] = List.replicate b.length 0 := by
      simp [padTo_nil]
    have h2 : padTo (max (List.length ([] : List Int)) b.length) b = b := by
      simp [padTo]
    rw [h1, h2]
    exact cmpZeroLeft_eq_lex b
  | cons x xs ih =>
    intro b
    cases b with
    | nil =>
      have hmax : max (x :: xs).length (List.length ([] : List Int)) = xs.length + 1 := by
        simp
      rw [hmax, padTo_nil, List.replicate_succ]
      have hpad : padTo (xs.length + 1) (x :: xs) = x :: padTo xs.length xs := padTo_cons _ _ _
      rw [hpad]
      show cmpPadded (x :: xs) [] =
        lexCmpInt (x :: padTo xs.length xs) (0 :: List.replicate xs.length 0)
      rw [cmpPadded, lexCmpInt]
      have h1 : List.replicate xs.length 0 = padTo (max xs.length (List.length ([] : List Int))) [] := by
        simp [padTo_nil]
      have h2 : padTo xs.length xs = padTo (max xs.length (List.length ([] : List Int))) xs := by
        simp
      rw [h1, h2, ih]
    | cons y ys =>
      have hmax : max (x :: xs).length (y :: ys).length = max xs.length ys.length + 1 := by
        simp [Nat.succ_max_succ]
      rw [hmax, padTo_cons, padTo_cons]
      rw [cmpPadded, lexCmpInt]
      rw [ih]

lemma cmpZeroLeft_right (ys : List Int) : cmpPadded ys [] = - cmpZeroLeft ys := by
  induction ys with
  | nil => simp [cmpPadded, cmpZeroLeft]
  | cons y ys ih =>
    rw [cmpPadded, cmpZeroLeft]
    rcases lt_trichotomy y 0 with h | h | h
    · simp [h, not_lt.mpr (le_of_lt h)]
    · simp [h]
      exact ih
    · simp [h, not_lt.mpr (le_of_lt h)]

/-- cmpPadded is antisymmetric up to sign. -/
lemma cmpPadded_flip : ∀ a b : List Int, cmpPadded a b = - cmpPadded b a := by
  intro a
  induction a with
  | nil =>
    intro b
    rw [show cmpPadded [] b = cmpZeroLeft b from rfl, cmpZeroLeft_right b]
    omega
  | cons x xs ih =>
    intro b
    cases b with
    | nil =>
      rw [show cmpPadded [] (x :: xs) = cmpZeroLeft (x :: xs) from rfl]
      rw [cmpPadded, cmpZeroLeft]
      rcases lt_trichotomy x 0 with h | h | h
      · simp [h, not_lt.mpr (le_of_lt h)]
      · simp [h, cmpZeroLeft_right]
      · simp [h, not_lt.mpr (le_of_lt h)]
    | cons y ys =>
      rw [cmpPadded, cmpPadded]
      rcases lt_trichotomy x y with h | h | h
      · simp [h, not_lt.mpr (le_of_lt h)]
      · simp [h]
        exact ih ys
      · simp [h, not_lt.mpr (le_of_lt h)]

lemma compareVersions_flip (a b : Str) : compareVersions a b = - compareVersions b a :=
  cmpPadded_flip _ _

lemma compareVersions_self (a : Str) : compareVersions a a = 0 := by
  have h := compareVersions_flip a a
  omega

/-! ### RemoteResolver: findLatestVersionTag (src/main.go:459-500) and the
second-variant getCommitSha (src/main.go:504-526) -/

/-- One entry of the GitHub /tags listing: tag name and the commit id the
listing records for it. -/
structure TagEntry where
  name : Str
  sha : Str
deriving DecidableEq

/-- strings.TrimPrefix(s, "v") (src/main.go:489-490). -/
def trimV : Str → Str
  | 'v' :: rest => rest
  | s => s

/-- The comparator passed to sort.Slice (src/main.go:488-492). -/
def vLess (a b : Str) : Bool := decide (0 < compareVersions (trimV a) (trimV b))

/-- Insertion step of the sort model.  Go uses an unstable comparison sort; any
sort consistent with the comparator is a faithful model (the spec leaves the
tie order unspecified), and insertion sort is the one used here. -/
def insertDesc (x : Str) : List Str → List Str
  | [] => [x]
  | y :: ys => if vLess x y then x :: y :: ys else y :: insertDesc x ys

/-- Descending sort of the filtered tag names (src/main.go:488-492). -/
def sortDesc : List Str → List Str
  | [] => []
  | x :: xs => insertDesc x (sortDesc xs)

/-- strings.HasPrefix(name, pre). -/
def startsWithB (p s : Str) : Bool := p.isPrefixOf s

def noTagsMsg (p : Str) : Str := str "no tags found with prefix " ++ p

def noResolveMsg (p : Str) : Str := str "could not resolve latest tag for prefix " ++ p

/-- findLatestVersionTag (src/main.go:459-500), after the /tags HTTP fetch has
produced the listing `tags`: filter names by prefix, fail if none, sort the
filtered names descending by version, then return the commit id the original
listing records for the winning name (first entry with that name). -/
def findLatestVersionTag (tags : List TagEntry) (p : Str) : Except Str Str :=
  let filtered := (tags.filter (fun t => startsWithB p t.name)).map (fun t => t.name)
  if filtered.isEmpty then Except.error (noTagsMsg p)
  else
    match sortDesc filtered with
    | [] => Except.error (noTagsMsg p)
    | latestTag :: _ =>
      match tags.find? (fun t => t.name == latestTag) with
      | some t => Except.ok t.sha
      | none => Except.error (noResolveMsg p)

/-- An object reference as returned by the remote lookup service. -/
structure RefObj where
  type : Str
  sha : Str
deriving DecidableEq

/-- Outcome of one HTTP fetch: transport failure, a non-200 status, or a
decoded object. -/
inductive FetchRes where
  | fail
  | notOk (code : Nat)
  | ok (o : RefObj)
deriving DecidableEq

instance {ε α : Type} [DecidableEq ε] [DecidableEq α] : DecidableEq (Except ε α) := fun a b =>
  match a, b with
  | Except.error e, Except.error e' =>
    if h : e = e' then Decidable.isTrue (by rw [h])
    else Decidable.isFalse (by intro hc; injection hc; exact h (by assumption))
  | Except.error _, Except.ok _ => Decidable.isFalse (fun hc => Except.noConfusion hc)
  | Except.ok _, Except.error _ => Decidable.isFalse (fun hc => Except.noConfusion hc)
  | Except.ok x, Except.ok y =>
    if h : x = y then Decidable.isTrue (by rw [h])
    else Decidable.isFalse (by intro hc; injection hc; exact h (by assumption))

def httpErrMsg : Str := str "http transport error"

def statusMsg (_code : Nat) : Str := str "GitHub API returned status"

/-- The remote state the second-variant getCommitSha can observe: the
git/ref/heads/master and git/ref/heads/main responses and the /tags listing
(status error or decoded list). -/
structure RemoteV2 where
  masterRef : FetchRes
  mainRef : FetchRes
  tagsList : Except Nat (List TagEntry)

def refToResult : FetchRes → Except Str Str
  | .fail => Except.error httpErrMsg
  | .notOk c => Except.error (statusMsg c)
  | .ok o => Except.ok o.sha

/-- Second-variant getCommitSha (src/main.go:504-526): master/main fetch the
branch head and return its object id as-is (no dereferencing); any other ref is
treated as a version prefix via findLatestVersionTag. -/
def getCommitShaV2 (env : RemoteV2) (tag : Str) : Except Str Str :=
  if tag = str "master" then refToResult env.masterRef
  else if tag = str "main" then refToResult env.mainRef
  else
    match env.tagsList with
    | Except.error c => Except.error (statusMsg c)
    | Except.ok tags => findLatestVersionTag tags tag

lemma vLess_self (a : Str) : vLess a a = false := by
  simp [vLess, compareVersions_self]

lemma vLess_asymm {a b : Str} (h : vLess a b = true) : vLess b a = false := by
  simp [vLess] at h ⊢
  rw [compareVersions_flip]
  omega

lemma mem_insertDesc {a x : Str} : ∀ l : List Str, a ∈ insertDesc x l ↔ a = x ∨ a ∈ l := by
  intro l
  induction l with
  | nil => simp [insertDesc]
  | cons y ys ih =>
    rw [insertDesc]
    by_cases h : vLess x y
    · simp only [h, if_true, List.mem_cons]
    · simp only [h, if_false, Bool.false_eq_true, List.mem_cons, ih]
      tauto

lemma mem_sortDesc {a : Str} : ∀ l : List Str, a ∈ sortDesc l ↔ a ∈ l := by
  intro l
  induction l with
  | nil => simp [sortDesc]
  | cons x xs ih =>
    rw [sortDesc, mem_insertDesc]
    simp [ih]

/-- If `m` is strictly maximal among the elements of `l` (under the sort
comparator), the sorted list starts with `m`. -/
lemma sortDesc_head_max :
    ∀ l : List Str, ∀ m : Str, m ∈ l → (∀ y ∈ l, y ≠ m → vLess m y = true) →
      ∃ rest, sortDesc l = m :: rest := by
  intro l
  induction l with
  | nil => intro m hm; simp at hm
  | cons x xs ih =>
    intro m hm hmax
    rw [sortDesc]
    by_cases hx : x = m
    · subst hx
      cases hsort : sortDesc xs with
      | nil => exact ⟨[], by rw [insertDesc]⟩
      | cons z zs =>
        by_cases hz : z = x
        · subst hz
          rw [insertDesc, vLess_self]
          exact ⟨insertDesc z zs, by simp⟩
        · have hzmem : z ∈ xs := by
            rw [← mem_sortDesc xs, hsort]; exact List.mem_cons_self _ _
          have hlt : vLess x z = true := hmax z (List.mem_cons_of_mem _ hzmem) hz
          exact ⟨z :: zs, by simp [insertDesc, hlt]⟩
    · have hmem : m ∈ xs := by
        rcases List.mem_cons.mp hm with h | h
        · exact absurd h.symm hx
        · exact h
      obtain ⟨rest, hrest⟩ := ih m hmem (fun y hy => hmax y (List.mem_cons_of_mem _ hy))
      rw [hrest]
      have hxm : vLess m x = true := hmax x (List.mem_cons_self _ _) hx
      rw [insertDesc, vLess_asymm hxm]
      exact ⟨insertDesc x rest, rfl⟩

def demoTags : List TagEntry :=
  [⟨str "v2.0.0", str "c1"⟩, ⟨str "v2.1.0", str "c2"⟩, ⟨str "v2.0.9", str "c3"⟩]

def demoEnv : RemoteV2 := ⟨FetchRes.notOk 404, FetchRes.notOk 404, Except.ok demoTags⟩

/-- Claim C1: for a ref that is neither "master" nor "main", the resolver lists
all tags, keeps exactly those whose name starts with the literal prefix, fails
with the "no matching tag" error when none match, and otherwise returns the
commit id the remote listing records for the tag whose name (after stripping a
leading "v") is maximal under the version comparator; on tags
["v2.0.0","v2.1.0","v2.0.9"] with prefix "v2" it returns the commit id of
"v2.1.0". -/
theorem claim1_prefix_resolution :
    (∀ env : RemoteV2, ∀ tags p, p ≠ str "master" → p ≠ str "main" →
        env.tagsList = Except.ok tags →
        getCommitShaV2 env p = findLatestVersionTag tags p) ∧
    (∀ tags p, (∀ t ∈ tags, startsWithB p t.name = false) →
        findLatestVersionTag tags p = Except.error (noTagsMsg p)) ∧
    (∀ tags p, ∀ m : TagEntry, m ∈ tags → startsWithB p m.name = true →
        (∀ t ∈ tags, startsWithB p t.name = true → t.name ≠ m.name →
          vLess m.name t.name = true) →
        tags.find? (fun t => t.name == m.name) = some m →
        findLatestVersionTag tags p = Except.ok m.sha) ∧
    getCommitShaV2 demoEnv (str "v2") = Except.ok (str "c2") := by
  refine ⟨?_, ?_, ?_, by decide⟩
  · intro env tags p h1 h2 h3
    simp [getCommitShaV2, h1, h2, h3]
  · intro tags p h
    have hfil : tags.filter (fun t => startsWithB p t.name) = [] := by
      rw [List.filter_eq_nil_iff]
      intro t ht
      simp [h t ht]
    simp [findLatestVersionTag, hfil]
  · intro tags p m hm hpre hmax hfind
    have hmemf : m.name ∈ (tags.filter (fun t => startsWithB p t.name)).map (fun t => t.name) := by
      exact List.mem_map.mpr ⟨m, List.mem_filter.mpr ⟨hm, hpre⟩, rfl⟩
    have hforall : ∀ y ∈ (tags.filter (fun t => startsWithB p t.name)).map (fun t => t.name),
        y ≠ m.name → vLess m.name y = true := by
      intro y hy hne
      obtain ⟨t, htf, rfl⟩ := List.mem_map.mp hy
      obtain ⟨htags, hp⟩ := List.mem_filter.mp htf
      exact hmax t htags hp hne
    obtain ⟨rest, hsort⟩ := sortDesc_head_max _ m.name hmemf hforall
    have hne : ((tags.filter (fun t => startsWithB p t.name)).map (fun t => t.name)).isEmpty = false := by
      cases hcase : ((tags.filter (fun t => startsWithB p t.name)).map (fun t => t.name)).isEmpty
      · rfl
      · rw [List.isEmpty_iff] at hcase
        rw [hcase] at hmemf
        simp at hmemf
    simp only [findLatestVersionTag, hne, Bool.false_eq_true, if_false, hsort, hfind]

/-- Witness for C1: the strict-maximum conjunct applied to the concrete listing
["v2.0.0","v2.1.0","v2.0.9"] with prefix "v2" returns the commit id of
"v2.1.0". -/
theorem claim1_witness :
    findLatestVersionTag demoTags (str "v2") = Except.ok (str "c2") :=
  claim1_prefix_resolution.2.2.1 demoTags (str "v2") ⟨str "v2.1.0", str "c2"⟩
    (by decide) (by decide) (by decide) (by decide)

/-- Claim C3: VersionComparer splits each version on ".", compares
corresponding components as numbers left to right with missing trailing
components treated as 0 and non-numeric components parsed as 0 (the
zero-padded lexicographic comparison `versionCompareSpec`), and in particular
compare("2.1.0","2.0.9") is greater than 0, compare("2.0","2.0.0") equals 0,
and compare("1.9","1.10") is less than 0. -/
theorem claim3_version_comparer :
    (∀ v1 v2 : Str, compareVersions v1 v2 = versionCompareSpec v1 v2) ∧
    compareVersions (str "2.1.0") (str "2.0.9") > 0 ∧
    compareVersions (str "2.0") (str "2.0.0") = 0 ∧
    compareVersions (str "1.9") (str "1.10") < 0 := by
  refine ⟨fun v1 v2 => ?_, by decide, by decide, by decide⟩
  simp only [compareVersions, versionCompareSpec]
  exact cmpPadded_eq_lex _ _

/-! ### First-variant getCommitSha (src/main.go:109-166): nested-tag
dereferencing.  The remote is modelled by the response to the initial
git/ref request and a function giving the response to each git/tags/(id)
request. -/

structure RemoteV1 where
  refFetch : FetchRes
  tagObjects : Str → FetchRes

/-- resolveTag (src/main.go:90-105): fetch the tag object for `sha` and return
its target object id; transport failures and non-200 statuses are errors. -/
def resolveTag (env : RemoteV1) (sha : Str) : Except Str Str :=
  match env.tagObjects sha with
  | FetchRes.fail => Except.error httpErrMsg
  | FetchRes.notOk c => Except.error (statusMsg c)
  | FetchRes.ok o => Except.ok o.sha

/-- The dereference loop of the first-variant getCommitSha
(src/main.go:129-161).  State: current object type, current commit id, and
whether any dereference step has happened (weirdMapping).  Each iteration
resolves the tag object, then re-fetches the resolved id: a transport error is
an error, a non-200 status breaks the loop without error, and a decoded object
continues the loop only if its recorded type is "tag".  The result pairs the
final commit id with the note flag (the informational note is printed exactly
once, after the loop, iff that flag is set).  `fuel` bounds the iteration count
of the Go `for` loop, which has no bound of its own. -/
def derefLoop (env : RemoteV1) : Nat → Str → Str → Bool → Except Str (Str × Bool)
  | 0, _, _, _ => Except.error (str "fuel exhausted")
  | fuel + 1, ty, sha, weird =>
    if ty = str "tag" then
      match env.tagObjects sha with
      | FetchRes.fail => Except.error httpErrMsg
      | FetchRes.notOk c => Except.error (statusMsg c)
      | FetchRes.ok o =>
        match env.tagObjects o.sha with
        | FetchRes.fail => Except.error httpErrMsg
        | FetchRes.notOk _ => Except.ok (o.sha, true)
        | FetchRes.ok t =>
          if t.type = str "tag" then derefLoop env fuel (str "tag") o.sha true
          else Except.ok (o.sha, true)
    else Except.ok (sha, weird)

/-- First-variant getCommitSha (src/main.go:109-166): fetch the initial
reference, then dereference while the recorded object type is "tag". -/
def getCommitShaV1 (env : RemoteV1) (fuel : Nat) : Except Str (Str × Bool) :=
  match env.refFetch with
  | FetchRes.fail => Except.error httpErrMsg
  | FetchRes.notOk c => Except.error (statusMsg c)
  | FetchRes.ok o => derefLoop env fuel o.type o.sha false

def tagAId : Str := str "tagA"

def tagBId : Str := str "tagB"

def commitCId : Str := str "commitC"

/-- The chain of C2: the branch head reference records an annotated tag tagA;
tagA is a tag whose target is tagB; tagB is a tag whose target is commitC;
commitC is not a tag object (the git/tags fetch for it returns 404). -/
def chainTagObjects : Str → FetchRes := fun s =>
  if s = tagAId then FetchRes.ok ⟨str "tag", tagBId⟩
  else if s = tagBId then FetchRes.ok ⟨str "tag", commitCId⟩
  else FetchRes.notOk 404

def chainEnvV1 : RemoteV1 := ⟨FetchRes.ok ⟨str "tag", tagAId⟩, chainTagObjects⟩

def chainEnvV2 : RemoteV2 := ⟨FetchRes.ok ⟨str "tag", tagAId⟩, FetchRes.notOk 404, Except.error 404⟩

/-- Claim C2 (code-bug exhibit): on the chain head -> tagA -> tagB -> commitC
the first-variant getCommitSha dereferences iteratively, returns commitC's id,
and sets the note flag exactly once (a failed re-fetch — the 404 on commitC —
terminates the loop without error); the second-variant getCommitSha
(src/main.go:504-526), the one that handles both "master" and "main", performs
no dereferencing at all: it returns the annotated tag's own id tagA with no
note, contradicting the claim, the first variant, and the README's
"Nested Tag Resolution" feature. -/
theorem claim2_nested_tag_divergence :
    getCommitShaV1 chainEnvV1 10 = Except.ok (commitCId, true) ∧
    getCommitShaV2 chainEnvV2 (str "master") = Except.ok tagAId ∧
    tagAId ≠ commitCId := by
  refine ⟨by decide, by decide, by decide⟩

/-! ### RefParser: the regexp uses:\s*([^/]+)/([^@]+)@(\S+)
(src/main.go:540).  Go regexp Perl semantics: the match starts at the leftmost
feasible position; since [^/]+ cannot cross a '/', the owner group necessarily
ends at the first '/' after "uses:" (greedy \s* backtracks at most to leave the
owner one character); the repo group likewise ends at the first '@' after that
'/', and the tag group is the maximal run of non-space characters after it. -/

/-- The character class \s of Go regexp: [\t\n\f\r ]. -/
def reSpace (c : Char) : Bool :=
  c.toNat = 9 || c.toNat = 10 || c.toNat = 12 || c.toNat = 13 || c.toNat = 32

/-- Split a list at the first character satisfying p: returns the (p-free)
part before it and the part after it. -/
def breakAt (p : Char → Bool) : Str → Option (Str × Str)
  | [] => none
  | c :: cs =>
    if p c then some ([], cs)
    else
      match breakAt p cs with
      | none => none
      | some (pre, post) => some (c :: pre, post)

structure Usage where
  owner : Str
  repo : Str
  tag : Str
deriving DecidableEq

/-- The group extraction after the literal "uses:" has matched. -/
def matchAfterUses (rest : Str) : Option Usage :=
  match breakAt (fun c => c = '/') rest with
  | none => none
  | some (before, after) =>
    let ws := before.takeWhile reSpace
    match (if ws.length < before.length then some (before.drop ws.length)
           else if 1 ≤ before.length then some (before.drop (before.length - 1))
           else none) with
    | none => none
    | some owner =>
      match breakAt (fun c => c = '@') after with
      | none => none
      | some (rbefore, rafter) =>
        if rbefore.isEmpty then none
        else
          let tg := rafter.takeWhile (fun c => !reSpace c)
          if tg.isEmpty then none else some ⟨owner, rbefore, tg⟩

/-- The literal "uses:" of the pattern. -/
def usesKey : Str := ['u', 's', 'e', 's', ':']

/-- Attempt to match the whole pattern at the current position. -/
def matchAt (l : Str) : Option Usage :=
  if l.take 5 = usesKey then matchAfterUses (l.drop 5) else none

/-- usageRegex.FindStringSubmatch (src/main.go:540, 555): leftmost match. -/
def findUsage : Str → Option Usage
  | [] => none
  | c :: cs =>
    match matchAt (c :: cs) with
    | some u => some u
    | none => findUsage cs

lemma breakAt_eq_none {p : Char → Bool} :
    ∀ l : Str, breakAt p l = none ↔ ∀ c ∈ l, p c = false := by
  intro l
  induction l with
  | nil => simp [breakAt]
  | cons c cs ih =>
    rw [breakAt]
    by_cases h : p c
    · simp [h]
    · cases hb : breakAt p cs with
      | none =>
        simp only [h, Bool.false_eq_true, if_false, hb]
        simp only [List.mem_cons]
        constructor
        · intro _ d hd
          rcases hd with rfl | hd
          · exact Bool.eq_false_iff.mpr h
          · exact (ih.mp hb) d hd
        · intro _
          trivial
      | some pr =>
        simp only [h, Bool.false_eq_true, if_false, hb]
        constructor
        · intro hc
          cases hc
        · intro hall
          have := ih.mpr (fun d hd => hall d (List.mem_cons_of_mem _ hd))
          rw [this] at hb
          cases hb

lemma breakAt_eq_some {p : Char → Bool} :
    ∀ l pre post, breakAt p l = some (pre, post) →
      (∀ c ∈ pre, p c = false) ∧ ∃ ch, p ch = true ∧ l = pre ++ ch :: post := by
  intro l
  induction l with
  | nil => intro pre post h; cases h
  | cons c cs ih =>
    intro pre post h
    rw [breakAt] at h
    by_cases hc : p c
    · simp only [hc, if_true] at h
      injection h with h
      injection h with h1 h2
      subst h1; subst h2
      refine ⟨?_, c, hc, rfl⟩
      intro d hd
      cases hd
    · simp only [hc, Bool.false_eq_true, if_false] at h
      cases hb : breakAt p cs with
      | none => rw [hb] at h; cases h
      | some pr =>
        obtain ⟨pre', post'⟩ := pr
        rw [hb] at h
        injection h with h
        injection h with h1 h2
        subst h2
        obtain ⟨hfree, ch, hch, heq⟩ := ih pre' post' hb
        subst h1
        refine ⟨?_, ch, hch, by rw [heq, List.cons_append]⟩
        intro d hd
        rcases List.mem_cons.mp hd with rfl | hd
        · exact Bool.eq_false_iff.mpr hc
        · exact hfree d hd

/-- Building form: a p-free prefix followed by a p-character splits there. -/
lemma breakAt_append {p : Char → Bool} :
    ∀ pre : Str, (∀ c ∈ pre, p c = false) → ∀ ch, p ch = true → ∀ post,
      breakAt p (pre ++ ch :: post) = some (pre, post) := by
  intro pre
  induction pre with
  | nil =>
    intro _ ch hch post
    simp [breakAt, hch]
  | cons c cs ih =>
    intro hfree ch hch post
    have hc : p c = false := hfree c (List.mem_cons_self _ _)
    rw [List.cons_append, breakAt, hc]
    simp only [Bool.false_eq_true, if_false]
    rw [ih (fun d hd => hfree d (List.mem_cons_of_mem _ hd)) ch hch post]

lemma drop_length_takeWhile (p : Char → Bool) :
    ∀ l : Str, l.drop (l.takeWhile p).length = l.dropWhile p := by
  intro l
  induction l with
  | nil => rfl
  | cons c cs ih =>
    by_cases h : p c
    · simp [List.takeWhile_cons, List.dropWhile_cons, h, ih]
    · simp [List.takeWhile_cons, List.dropWhile_cons, h]

lemma dropWhile_head_false (p : Char → Bool) :
    ∀ l : Str, ∀ (c : Char) (cs : Str), l.dropWhile p = c :: cs → p c = false := by
  intro l
  induction l with
  | nil => intro c cs h; cases h
  | cons d ds ih =>
    intro c cs h
    by_cases hd : p d
    · rw [List.dropWhile_cons_of_pos hd] at h
      exact ih c cs h
    · rw [List.dropWhile_cons_of_neg hd] at h
      injection h with h1 _
      subst h1
      exact Bool.eq_false_iff.mpr hd

lemma takeWhile_all_append (p : Char → Bool) :
    ∀ a : Str, (∀ c ∈ a, p c = true) → ∀ ch, p ch = false → ∀ b,
      (a ++ ch :: b).takeWhile p = a := by
  intro a
  induction a with
  | nil =>
    intro _ ch hch b
    simp [List.takeWhile_cons, hch]
  | cons c cs ih =>
    intro hall ch hch b
    rw [List.cons_append, List.takeWhile_cons_of_pos (hall c (List.mem_cons_self _ _))]
    rw [ih (fun d hd => hall d (List.mem_cons_of_mem _ hd)) ch hch b]

lemma mem_takeWhile_true (p : Char → Bool) :
    ∀ l : Str, ∀ c ∈ l.takeWhile p, p c = true := by
  intro l
  induction l with
  | nil => intro c h; cases h
  | cons d ds ih =>
    intro c hc
    by_cases hd : p d
    · rw [List.takeWhile_cons_of_pos hd] at hc
      rcases List.mem_cons.mp hc with rfl | hc
      · exact hd
      · exact ih c hc
    · rw [List.takeWhile_cons_of_neg hd] at hc
      cases hc

/-- The shape facts the captured groups always satisfy: the owner group has no
'/', is nonempty, and either starts with a non-space character or is a single
character; the repo group has no '@' and is nonempty; the tag group is a
nonempty run of non-space characters. -/
def usageShape (u : Usage) : Prop :=
  ('/' ∉ u.owner) ∧ u.owner ≠ [] ∧
    ((∃ c cs, u.owner = c :: cs ∧ reSpace c = false) ∨ ∃ w, u.owner = [w]) ∧
    ('@' ∉ u.repo) ∧ u.repo ≠ [] ∧
    u.tag ≠ [] ∧ (∀ c ∈ u.tag, reSpace c = false)

lemma matchAfterUses_props {rest : Str} {u : Usage}
    (h : matchAfterUses rest = some u) : usageShape u := by
  rw [matchAfterUses] at h
  cases hb : breakAt (fun c => c = '/') rest with
  | none => rw [hb] at h; cases h
  | some pr =>
    obtain ⟨before, after⟩ := pr
    rw [hb] at h
    simp only at h
    obtain ⟨hfree, ch, hch, _⟩ := breakAt_eq_some _ _ _ hb
    have hslash : ∀ c ∈ before, c ≠ '/' := by
      intro c hc
      have := hfree c hc
      simpa using this
    set ws := before.takeWhile reSpace with hws
    have howner : ∀ owner : Str,
        (if ws.length < before.length then some (before.drop ws.length)
         else if 1 ≤ before.length then some (before.drop (before.length - 1))
         else none) = some owner →
        ('/' ∉ owner) ∧ owner ≠ [] ∧
          ((∃ c cs, owner = c :: cs ∧ reSpace c = false) ∨ ∃ w, owner = [w]) := by
      intro owner howq
      by_cases hlt : ws.length < before.length
      · rw [if_pos hlt] at howq
        injection howq with howq
        subst howq
        refine ⟨?_, ?_, ?_⟩
        · intro hmem
          exact hslash '/' (List.mem_of_mem_drop hmem) rfl
        · intro hnil
          have : before.length - ws.length = 0 := by
            rw [← List.length_drop, hnil]; rfl
          omega
        · left
          have hdw : before.drop ws.length = before.dropWhile reSpace := by
            rw [hws, drop_length_takeWhile]
          cases hcase : before.dropWhile reSpace with
          | nil =>
            exfalso
            have : before.drop ws.length = [] := by rw [hdw, hcase]
            have : before.length - ws.length = 0 := by
              rw [← List.length_drop, this]; rfl
            omega
          | cons c cs =>
            exact ⟨c, cs, by rw [hdw, hcase], dropWhile_head_false _ _ _ _ hcase⟩
      · rw [if_neg hlt] at howq
        by_cases hone : 1 ≤ before.length
        · rw [if_pos hone] at howq
          injection howq with howq
          subst howq
          have hlen : (before.drop (before.length - 1)).length = 1 := by
            rw [List.length_drop]
            omega
          refine ⟨?_, ?_, ?_⟩
          · intro hmem
            exact hslash '/' (List.mem_of_mem_drop hmem) rfl
          · intro hnil
            rw [hnil] at hlen
            cases hlen
          · right
            cases hcase : before.drop (before.length - 1) with
            | nil => rw [hcase] at hlen; cases hlen
            | cons w tl =>
              rw [hcase] at hlen
              simp at hlen
              exact ⟨w, by simp [hcase, hlen]⟩
        · rw [if_neg hone] at howq
          cases howq
    cases hq : (if ws.length < before.length then some (before.drop ws.length)
                else if 1 ≤ before.length then some (before.drop (before.length - 1))
                else none) with
    | none => rw [hq] at h; cases h
    | some owner =>
      rw [hq] at h
      simp only at h
      cases hb2 : breakAt (fun c => c = '@') after with
      | none => rw [hb2] at h; cases h
      | some pr2 =>
        obtain ⟨rbefore, rafter⟩ := pr2
        rw [hb2] at h
        simp only at h
        obtain ⟨hfree2, ch2, hch2, _⟩ := breakAt_eq_some _ _ _ hb2
        by_cases hre : rbefore.isEmpty
        · rw [if_pos hre] at h; cases h
        · rw [if_neg hre] at h
          by_cases hte : (rafter.takeWhile (fun c => !reSpace c)).isEmpty
          · rw [if_pos hte] at h; cases h
          · rw [if_neg hte] at h
            injection h with h
            subst h
            obtain ⟨ho1, ho2, ho3⟩ := howner owner hq
            refine ⟨ho1, ho2, ho3, ?_, ?_, ?_, ?_⟩
            · intro hmem
              have := hfree2 '@' hmem
              simp at this
            · intro hnil
              apply hre
              have hrb : rbefore = [] := hnil
              rw [hrb]
              rfl
            · intro hnil
              apply hte
              have htg : rafter.takeWhile (fun c => !reSpace c) = [] := hnil
              rw [htg]
              rfl
            · intro c hc
              have := mem_takeWhile_true _ _ c hc
              simpa using this

lemma matchAt_eq_some {l : Str} {u : Usage} (h : matchAt l = some u) :
    l.take 5 = usesKey ∧ matchAfterUses (l.drop 5) = some u := by
  rw [matchAt] at h
  by_cases hc : l.take 5 = usesKey
  · rw [if_pos hc] at h
    exact ⟨hc, h⟩
  · rw [if_neg hc] at h
    cases h

lemma matchAt_cons_ne {c : Char} (l : Str) (h : c ≠ 'u') : matchAt (c :: l) = none := by
  rw [matchAt, if_neg]
  intro hc
  rw [show (c :: l).take 5 = c :: l.take 4 from rfl] at hc
  injection hc with h1 _
  exact h h1

lemma findUsage_props : ∀ l : Str, ∀ u : Usage, findUsage l = some u → usageShape u := by
  intro l
  induction l with
  | nil => intro u h; cases h
  | cons c cs ih =>
    intro u h
    rw [findUsage] at h
    cases hm : matchAt (c :: cs) with
    | some u' =>
      rw [hm] at h
      injection h with h
      subst h
      exact matchAfterUses_props (matchAt_eq_some hm).2
    | none =>
      rw [hm] at h
      exact ih u h

/-- Re-matching the rebuilt usage text: the group extraction on
" owner/repo at sha comment" recovers owner, repo and sha. -/
lemma matchAfterUses_rebuild (o r sh tail : Str)
    (ho1 : '/' ∉ o)
    (ho3 : (∃ c cs, o = c :: cs ∧ reSpace c = false) ∨ ∃ w, o = [w])
    (hr1 : '@' ∉ r) (hr2 : r ≠ [])
    (hs1 : sh ≠ []) (hs2 : ∀ c ∈ sh, reSpace c = false) :
    matchAfterUses (' ' :: (o ++ ['/'] ++ r ++ ['@'] ++ sh ++ [' '] ++ tail)) =
      some ⟨o, r, sh⟩ := by
  have hshape : ' ' :: (o ++ ['/'] ++ r ++ ['@'] ++ sh ++ [' '] ++ tail) =
      (' ' :: o) ++ '/' :: (r ++ '@' :: (sh ++ ' ' :: tail)) := by
    simp
  rw [hshape]
  have hb : breakAt (fun c => c = '/') ((' ' :: o) ++ '/' :: (r ++ '@' :: (sh ++ ' ' :: tail)))
      = some (' ' :: o, r ++ '@' :: (sh ++ ' ' :: tail)) := by
    apply breakAt_append
    · intro c hc
      simp only [decide_eq_false_iff_not]
      rcases List.mem_cons.mp hc with rfl | hc
      · decide
      · intro hcc
        exact ho1 (hcc ▸ hc)
    · decide
  rw [matchAfterUses, hb]
  simp only
  have howner : (if ((' ' :: o).takeWhile reSpace).length < (' ' :: o).length
      then some ((' ' :: o).drop ((' ' :: o).takeWhile reSpace).length)
      else if 1 ≤ (' ' :: o).length then some ((' ' :: o).drop ((' ' :: o).length - 1))
      else none) = some o := by
    have hsp : reSpace ' ' = true := by decide
    rcases ho3 with ⟨c, cs, hoc, hcns⟩ | ⟨w, how⟩
    · have htw : (' ' :: o).takeWhile reSpace = [' '] := by
        rw [List.takeWhile_cons_of_pos hsp, hoc, List.takeWhile_cons_of_neg]
        simp [hcns]
      rw [htw]
      have hlt : ([' '] : Str).length < (' ' :: o).length := by
        rw [hoc]; simp
      rw [if_pos hlt]
      rfl
    · by_cases hw : reSpace w
      · have htw : (' ' :: o).takeWhile reSpace = ' ' :: [w] := by
          rw [List.takeWhile_cons_of_pos hsp, how, List.takeWhile_cons_of_pos hw]
          rfl
        rw [htw, how]
        simp
      · have htw : (' ' :: o).takeWhile reSpace = [' '] := by
          rw [List.takeWhile_cons_of_pos hsp, how, List.takeWhile_cons_of_neg hw]
        rw [htw]
        have hlt : ([' '] : Str).length < (' ' :: o).length := by
          rw [how]; simp
        rw [if_pos hlt]
        rfl
  rw [howner]
  simp only
  have hb2 : breakAt (fun c => c = '@') (r ++ '@' :: (sh ++ ' ' :: tail))
      = some (r, sh ++ ' ' :: tail) := by
    apply breakAt_append
    · intro c hc
      simp only [decide_eq_false_iff_not]
      intro hcc
      exact hr1 (hcc ▸ hc)
    · decide
  rw [hb2]
  simp only
  have hre : r.isEmpty = false := by
    cases r with
    | nil => exact absurd rfl hr2
    | cons _ _ => rfl
  rw [hre]
  simp only [Bool.false_eq_true, if_false]
  have htag : (sh ++ ' ' :: tail).takeWhile (fun c => !reSpace c) = sh := by
    apply takeWhile_all_append
    · intro c hc
      simp [hs2 c hc]
    · decide
  rw [htag]
  have hse : sh.isEmpty = false := by
    cases sh with
    | nil => exact absurd rfl hs1
    | cons _ _ => rfl
  rw [hse]
  simp

lemma findUsage_prefix_ws :
    ∀ pre : Str, (∀ c ∈ pre, c = ' ' ∨ c = '\t') → ∀ rest,
      findUsage (pre ++ rest) = findUsage rest := by
  intro pre
  induction pre with
  | nil => intro _ rest; rfl
  | cons c cs ih =>
    intro hws rest
    rw [List.cons_append, findUsage]
    have hc : c ≠ 'u' := by
      rcases hws c (List.mem_cons_self _ _) with rfl | rfl <;> decide
    rw [matchAt_cons_ne _ hc]
    exact ih (fun d hd => hws d (List.mem_cons_of_mem _ hd)) rest

/-! ### PolicyEngine and RewriteEngine: processFile (src/main.go:543-646).
The answer source (stdin) is modelled as a stream `ans : Nat -> Str` read at a
cursor index; the composed RemoteResolver is an abstract function. -/

structure Config where
  allowedOrgs : List Str
  acceptedMapping : List (Str × Str)
deriving DecidableEq

/-- Go map lookup: first binding wins (insertions are consed in front). -/
def lookupMap : List (Str × Str) → Str → Option Str
  | [], _ => none
  | (k', v) :: rest, k => if k' = k then some v else lookupMap rest k

lemma lookupMap_cons (k' v : Str) (rest : List (Str × Str)) (k : Str) :
    lookupMap ((k', v) :: rest) k = if k' = k then some v else lookupMap rest k := rfl

/-- Go map insert (config.AcceptedMapping[key] = sha): the new binding shadows
any earlier one under `lookupMap`. -/
def insertMap (m : List (Str × Str)) (k v : Str) : List (Str × Str) := (k, v) :: m

/-- isAllowedOrg (src/main.go:529-536): strings.EqualFold compare against every
allowed organization (case folding modelled by lower-casing both sides). -/
def isAllowedOrg (cfg : Config) (owner : Str) : Bool :=
  cfg.allowedOrgs.any (fun org => decide (owner.map Char.toLower = org.map Char.toLower))

/-- The character class [0-9a-f] of the pin check (src/main.go:562). -/
def isHexLower (c : Char) : Bool :=
  (48 ≤ c.toNat && c.toNat ≤ 57) || (97 ≤ c.toNat && c.toNat ≤ 102)

/-- The already-pinned check: the regexp (lowercase) 40-hex-char ref test
(src/main.go:562). -/
def isHex40 (t : Str) : Bool := t.length == 40 && t.all isHexLower

/-- key := fmt.Sprintf(owner/repo at tag) (src/main.go:566). -/
def mkKey (o r t : Str) : Str := o ++ ['/'] ++ r ++ ['@'] ++ t

/-- The leading-whitespace scan of the rewrite (src/main.go:626-633): spaces
and tabs only. -/
def leadingWS (l : Str) : Str := l.takeWhile (fun c => c = ' ' || c = '\t')

lemma mem_leadingWS (l : Str) : ∀ c ∈ leadingWS l, c = ' ' ∨ c = '\t' := by
  intro c hc
  have := mem_takeWhile_true _ _ c hc
  rcases Bool.or_eq_true_iff.mp this with h | h
  · left; exact of_decide_eq_true h
  · right; exact of_decide_eq_true h

/-- The trailing comment (src/main.go:620-625): only the literal ref "master"
gets the date suffix; every other ref — including "main" — gets the plain
form. -/
def versionComment (tag today : Str) : Str :=
  if tag = str "master" then ['#'] ++ str "master" ++ ['-'] ++ today
  else ['#'] ++ tag

/-- The replacement text (src/main.go:634): original leading whitespace, the
usage with the commit id, and the comment. -/
def rewriteLine (line o r sha tag today : Str) : Str :=
  leadingWS line ++ str "uses: " ++ o ++ ['/'] ++ r ++ ['@'] ++ sha ++ [' '] ++
    versionComment tag today

/-- strings.TrimSpace(strings.ToLower(answer)) (src/main.go:594). -/
def normalizeAnswer (a : Str) : Str :=
  (((a.map Char.toLower).dropWhile Char.isWhitespace).reverse.dropWhile
    Char.isWhitespace).reverse

abbrev Resolver := Str → Str → Str → Except Str Str

/-- What processing one line does (src/main.go:554-635): the resulting line
text, whether the line was rewritten, the updated config and answer cursor,
the key prompted for (if a prompt was shown) and the raw answer consumed, and
whether the resolver was invoked, the key hit the acceptance cache, or the
user aborted (answer "q"). -/
structure LineResult where
  line : Str
  rewritten : Bool
  cfg : Config
  idx : Nat
  promptedKey : Option Str
  answerUsed : Option Str
  resolverCalled : Bool
  cacheHit : Bool
  aborted : Bool
deriving DecidableEq

def processLine (resolver : Resolver) (today : Str) (ans : Nat → Str)
    (cfg : Config) (idx : Nat) (line : Str) : LineResult :=
  match findUsage line with
  | none => ⟨line, false, cfg, idx, none, none, false, false, false⟩
  | some u =>
    if isAllowedOrg cfg u.owner || isHex40 u.tag then
      ⟨line, false, cfg, idx, none, none, false, false, false⟩
    else
      let key := mkKey u.owner u.repo u.tag
      match lookupMap cfg.acceptedMapping key with
      | some sha =>
        ⟨rewriteLine line u.owner u.repo sha u.tag today, true, cfg, idx,
          none, none, false, true, false⟩
      | none =>
        match resolver u.owner u.repo u.tag with
        | Except.error _ => ⟨line, false, cfg, idx, none, none, true, false, false⟩
        | Except.ok sha =>
          let a := ans idx
          let na := normalizeAnswer a
          if na = str "y" then
            ⟨rewriteLine line u.owner u.repo sha u.tag today, true,
              { cfg with acceptedMapping := insertMap cfg.acceptedMapping key sha },
              idx + 1, some key, some a, true, false, false⟩
          else if na = str "n" then
            ⟨line, false, cfg, idx + 1, some key, some a, true, false, false⟩
          else if na = str "a" then
            ⟨line, false, { cfg with allowedOrgs := cfg.allowedOrgs ++ [u.owner] },
              idx + 1, some key, some a, true, false, false⟩
          else if na = str "q" then
            ⟨line, false, cfg, idx + 1, some key, some a, true, false, true⟩
          else
            ⟨line, false, cfg, idx + 1, some key, some a, true, false, false⟩

/-- Result of the per-file loop: in-memory lines, the changed flag, final
config and answer cursor, the per-line results in order, and — when the user
aborted — the config saveConfig persisted at that moment (os.Exit(0) then
stops everything, so the file is never written back). -/
structure FileResult where
  lines : List Str
  changed : Bool
  cfg : Config
  idx : Nat
  logs : List LineResult
  abortCfg : Option Config

def processLines (resolver : Resolver) (today : Str) (ans : Nat → Str) :
    Config → Nat → List Str → FileResult
  | cfg, idx, [] => ⟨[], false, cfg, idx, [], none⟩
  | cfg, idx, l :: ls =>
    let r := processLine resolver today ans cfg idx l
    if r.aborted then
      ⟨l :: ls, false, cfg, r.idx, [r], some r.cfg⟩
    else
      let rest := processLines resolver today ans r.cfg r.idx ls
      ⟨r.line :: rest.lines, r.rewritten || rest.changed, rest.cfg, rest.idx,
        r :: rest.logs, rest.abortCfg⟩

lemma processLines_nil (resolver : Resolver) (today : Str) (ans : Nat → Str)
    (cfg : Config) (idx : Nat) :
    processLines resolver today ans cfg idx [] = ⟨[], false, cfg, idx, [], none⟩ := rfl

lemma processLines_cons (resolver : Resolver) (today : Str) (ans : Nat → Str)
    (cfg : Config) (idx : Nat) (l : Str) (ls : List Str) :
    processLines resolver today ans cfg idx (l :: ls) =
      if (processLine resolver today ans cfg idx l).aborted then
        ⟨l :: ls, false, cfg, (processLine resolver today ans cfg idx l).idx,
          [processLine resolver today ans cfg idx l],
          some (processLine resolver today ans cfg idx l).cfg⟩
      else
        ⟨(processLine resolver today ans cfg idx l).line ::
            (processLines resolver today ans (processLine resolver today ans cfg idx l).cfg
              (processLine resolver today ans cfg idx l).idx ls).lines,
          ((processLine resolver today ans cfg idx l).rewritten ||
            (processLines resolver today ans (processLine resolver today ans cfg idx l).cfg
              (processLine resolver today ans cfg idx l).idx ls).changed),
          (processLines resolver today ans (processLine resolver today ans cfg idx l).cfg
            (processLine resolver today ans cfg idx l).idx ls).cfg,
          (processLines resolver today ans (processLine resolver today ans cfg idx l).cfg
            (processLine resolver today ans cfg idx l).idx ls).idx,
          processLine resolver today ans cfg idx l ::
            (processLines resolver today ans (processLine resolver today ans cfg idx l).cfg
              (processLine resolver today ans cfg idx l).idx ls).logs,
          (processLines resolver today ans (processLine resolver today ans cfg idx l).cfg
            (processLine resolver today ans cfg idx l).idx ls).abortCfg⟩ := rfl

/-- strings.Split(content, newline) (src/main.go:551). -/
def splitLines : Str → List Str
  | [] => [[]]
  | c :: cs =>
    if c = '\n' then [] :: splitLines cs
    else
      match splitLines cs with
      | [] => [[c]]
      | p :: ps => (c :: p) :: ps

/-- strings.Join(lines, newline) (src/main.go:638). -/
def joinLines : List Str → Str
  | [] => []
  | [l] => l
  | l :: ls => l ++ ['\n'] ++ joinLines ls

structure FileOut where
  res : FileResult
  disk : Str

/-- processFile (src/main.go:543-646): split the content into lines, run the
per-line loop, and write the joined lines back only when some line was
rewritten and the run was not aborted. -/
def processFile (resolver : Resolver) (today : Str) (ans : Nat → Str)
    (cfg : Config) (idx : Nat) (content : Str) : FileOut :=
  let res := processLines resolver today ans cfg idx (splitLines content)
  { res := res
    disk := if res.abortCfg.isNone && res.changed then joinLines res.lines else content }

lemma isHex40_spec {t : Str} (h : isHex40 t = true) :
    t.length = 40 ∧ ∀ c ∈ t, isHexLower c = true := by
  rw [isHex40] at h
  obtain ⟨h1, h2⟩ := Bool.and_eq_true_iff.mp h
  refine ⟨by simpa using h1, ?_⟩
  intro c hc
  exact List.all_eq_true.mp h2 c hc

lemma hex_not_space {c : Char} (h : isHexLower c = true) : reSpace c = false := by
  rw [isHexLower] at h
  rw [reSpace]
  simp only [Bool.or_eq_true, Bool.and_eq_true, decide_eq_true_eq] at h
  simp only [Bool.or_eq_false_iff, decide_eq_false_iff_not]
  omega

lemma isHex40_ne_nil {t : Str} (h : isHex40 t = true) : t ≠ [] := by
  intro hnil
  have := (isHex40_spec h).1
  rw [hnil] at this
  cases this

lemma isHex40_no_space {t : Str} (h : isHex40 t = true) : ∀ c ∈ t, reSpace c = false :=
  fun c hc => hex_not_space ((isHex40_spec h).2 c hc)

lemma isHex40_no_newline {t : Str} (h : isHex40 t = true) : '\n' ∉ t := by
  intro hmem
  have := (isHex40_spec h).2 '\n' hmem
  cases this

lemma str_uses_blank : str "uses: " = usesKey ++ [' '] := by decide

/-- Re-parsing a rewritten line: the regexp extracts the same owner and repo
and the new (hex) commit id as the ref. -/
lemma findUsage_rewriteLine (line o r sh tag today : Str)
    (ho1 : '/' ∉ o)
    (ho3 : (∃ c cs, o = c :: cs ∧ reSpace c = false) ∨ ∃ w, o = [w])
    (hr1 : '@' ∉ r) (hr2 : r ≠ [])
    (hsh : isHex40 sh = true) :
    findUsage (rewriteLine line o r sh tag today) = some ⟨o, r, sh⟩ := by
  have hassoc : rewriteLine line o r sh tag today =
      leadingWS line ++ (usesKey ++ (' ' ::
        (o ++ ['/'] ++ r ++ ['@'] ++ sh ++ [' '] ++ versionComment tag today))) := by
    rw [rewriteLine, str_uses_blank]
    simp [List.append_assoc]
  rw [hassoc, findUsage_prefix_ws _ (mem_leadingWS line) _]
  show findUsage ('u' :: (['s', 'e', 's', ':'] ++ (' ' ::
    (o ++ ['/'] ++ r ++ ['@'] ++ sh ++ [' '] ++ versionComment tag today)))) = _
  rw [findUsage]
  have hm : matchAt ('u' :: (['s', 'e', 's', ':'] ++ (' ' ::
      (o ++ ['/'] ++ r ++ ['@'] ++ sh ++ [' '] ++ versionComment tag today)))) =
      some ⟨o, r, sh⟩ := by
    rw [matchAt]
    have htake : ('u' :: (['s', 'e', 's', ':'] ++ (' ' ::
        (o ++ ['/'] ++ r ++ ['@'] ++ sh ++ [' '] ++ versionComment tag today)))).take 5
        = usesKey := rfl
    have hdrop : ('u' :: (['s', 'e', 's', ':'] ++ (' ' ::
        (o ++ ['/'] ++ r ++ ['@'] ++ sh ++ [' '] ++ versionComment tag today)))).drop 5
        = ' ' :: (o ++ ['/'] ++ r ++ ['@'] ++ sh ++ [' '] ++ versionComment tag today) := rfl
    rw [htake, if_pos rfl, hdrop]
    exact matchAfterUses_rebuild o r sh _ ho1 ho3 hr1 hr2 (isHex40_ne_nil hsh)
      (isHex40_no_space hsh)
  rw [hm]

/-! Branch computation lemmas for processLine. -/

lemma processLine_none {resolver today ans cfg idx line}
    (hf : findUsage line = none) :
    processLine resolver today ans cfg idx line =
      ⟨line, false, cfg, idx, none, none, false, false, false⟩ := by
  rw [processLine, hf]

lemma processLine_skip {resolver today ans cfg idx line u}
    (hf : findUsage line = some u)
    (hskip : (isAllowedOrg cfg u.owner || isHex40 u.tag) = true) :
    processLine resolver today ans cfg idx line =
      ⟨line, false, cfg, idx, none, none, false, false, false⟩ := by
  rw [processLine, hf]
  simp only [hskip, if_true]

lemma processLine_cache {resolver today ans cfg idx line u sha}
    (hf : findUsage line = some u)
    (hskip : (isAllowedOrg cfg u.owner || isHex40 u.tag) = false)
    (hl : lookupMap cfg.acceptedMapping (mkKey u.owner u.repo u.tag) = some sha) :
    processLine resolver today ans cfg idx line =
      ⟨rewriteLine line u.owner u.repo sha u.tag today, true, cfg, idx,
        none, none, false, true, false⟩ := by
  rw [processLine, hf]
  simp only [hskip, Bool.false_eq_true, if_false, hl]

lemma processLine_err {resolver today ans cfg idx line u e}
    (hf : findUsage line = some u)
    (hskip : (isAllowedOrg cfg u.owner || isHex40 u.tag) = false)
    (hl : lookupMap cfg.acceptedMapping (mkKey u.owner u.repo u.tag) = none)
    (hres : resolver u.owner u.repo u.tag = Except.error e) :
    processLine resolver today ans cfg idx line =
      ⟨line, false, cfg, idx, none, none, true, false, false⟩ := by
  rw [processLine, hf]
  simp only [hskip, Bool.false_eq_true, if_false, hl, hres]

lemma processLine_prompt_y {resolver today ans cfg idx line u sha}
    (hf : findUsage line = some u)
    (hskip : (isAllowedOrg cfg u.owner || isHex40 u.tag) = false)
    (hl : lookupMap cfg.acceptedMapping (mkKey u.owner u.repo u.tag) = none)
    (hres : resolver u.owner u.repo u.tag = Except.ok sha)
    (ha : normalizeAnswer (ans idx) = str "y") :
    processLine resolver today ans cfg idx line =
      ⟨rewriteLine line u.owner u.repo sha u.tag today, true,
        { cfg with acceptedMapping :=
            insertMap cfg.acceptedMapping (mkKey u.owner u.repo u.tag) sha },
        idx + 1, some (mkKey u.owner u.repo u.tag), some (ans idx), true, false, false⟩ := by
  rw [processLine, hf]
  simp only [hskip, Bool.false_eq_true, if_false, hl, hres, ha]
  rw [if_pos trivial]

lemma processLine_prompt_other {resolver today ans cfg idx line u sha}
    (hf : findUsage line = some u)
    (hskip : (isAllowedOrg cfg u.owner || isHex40 u.tag) = false)
    (hl : lookupMap cfg.acceptedMapping (mkKey u.owner u.repo u.tag) = none)
    (hres : resolver u.owner u.repo u.tag = Except.ok sha)
    (hy : normalizeAnswer (ans idx) ≠ str "y")
    (hn : normalizeAnswer (ans idx) ≠ str "n")
    (haa : normalizeAnswer (ans idx) ≠ str "a")
    (hq : normalizeAnswer (ans idx) ≠ str "q") :
    processLine resolver today ans cfg idx line =
      ⟨line, false, cfg, idx + 1, some (mkKey u.owner u.repo u.tag),
        some (ans idx), true, false, false⟩ := by
  rw [processLine, hf]
  simp only [hskip, Bool.false_eq_true, if_false, hl, hres]
  rw [if_neg hy, if_neg hn, if_neg haa, if_neg hq]

lemma processLine_prompt_n {resolver today ans cfg idx line u sha}
    (hf : findUsage line = some u)
    (hskip : (isAllowedOrg cfg u.owner || isHex40 u.tag) = false)
    (hl : lookupMap cfg.acceptedMapping (mkKey u.owner u.repo u.tag) = none)
    (hres : resolver u.owner u.repo u.tag = Except.ok sha)
    (ha : normalizeAnswer (ans idx) = str "n") :
    processLine resolver today ans cfg idx line =
      ⟨line, false, cfg, idx + 1, some (mkKey u.owner u.repo u.tag),
        some (ans idx), true, false, false⟩ := by
  rw [processLine, hf]
  simp only [hskip, Bool.false_eq_true, if_false, hl, hres, ha]
  rw [if_neg (show ¬(str "n" = str "y") from by decide), if_pos trivial]

lemma processLine_prompt_a {resolver today ans cfg idx line u sha}
    (hf : findUsage line = some u)
    (hskip : (isAllowedOrg cfg u.owner || isHex40 u.tag) = false)
    (hl : lookupMap cfg.acceptedMapping (mkKey u.owner u.repo u.tag) = none)
    (hres : resolver u.owner u.repo u.tag = Except.ok sha)
    (ha : normalizeAnswer (ans idx) = str "a") :
    processLine resolver today ans cfg idx line =
      ⟨line, false, { cfg with allowedOrgs := cfg.allowedOrgs ++ [u.owner] },
        idx + 1, some (mkKey u.owner u.repo u.tag), some (ans idx), true, false, false⟩ := by
  rw [processLine, hf]
  simp only [hskip, Bool.false_eq_true, if_false, hl, hres, ha]
  rw [if_neg (show ¬(str "a" = str "y") from by decide),
    if_neg (show ¬(str "a" = str "n") from by decide), if_pos trivial]

lemma processLine_prompt_q {resolver today ans cfg idx line u sha}
    (hf : findUsage line = some u)
    (hskip : (isAllowedOrg cfg u.owner || isHex40 u.tag) = false)
    (hl : lookupMap cfg.acceptedMapping (mkKey u.owner u.repo u.tag) = none)
    (hres : resolver u.owner u.repo u.tag = Except.ok sha)
    (ha : normalizeAnswer (ans idx) = str "q") :
    processLine resolver today ans cfg idx line =
      ⟨line, false, cfg, idx + 1, some (mkKey u.owner u.repo u.tag),
        some (ans idx), true, false, true⟩ := by
  rw [processLine, hf]
  simp only [hskip, Bool.false_eq_true, if_false, hl, hres, ha]
  rw [if_neg (show ¬(str "q" = str "y") from by decide),
    if_neg (show ¬(str "q" = str "n") from by decide),
    if_neg (show ¬(str "q" = str "a") from by decide), if_pos trivial]

structure ToolResult where
  files : List Str
  persisted : Config
  exitCode : Nat
  prompts : List Str

def promptsOf (logs : List LineResult) : List Str :=
  logs.filterMap (fun r => r.promptedKey)

/-- The whole run (main, src/main.go:648-693): process the files in order,
threading config and the answer cursor; an abort persists the config captured
at the "q" answer and exits 0 at once (later files untouched); a normal
completion persists the final config and exits 0. -/
def runTool (resolver : Resolver) (today : Str) (ans : Nat → Str) :
    Config → Nat → List Str → ToolResult
  | cfg, _, [] => ⟨[], cfg, 0, []⟩
  | cfg, idx, f :: fs =>
    let fo := processFile resolver today ans cfg idx f
    if fo.res.abortCfg.isSome then
      ⟨fo.disk :: fs, fo.res.abortCfg.getD cfg, 0, promptsOf fo.res.logs⟩
    else
      let rest := runTool resolver today ans fo.res.cfg fo.res.idx fs
      ⟨fo.disk :: rest.files, rest.persisted, rest.exitCode,
        promptsOf fo.res.logs ++ rest.prompts⟩

lemma runTool_nil (resolver : Resolver) (today : Str) (ans : Nat → Str)
    (cfg : Config) (idx : Nat) :
    runTool resolver today ans cfg idx [] = ⟨[], cfg, 0, []⟩ := rfl

lemma runTool_cons (resolver : Resolver) (today : Str) (ans : Nat → Str)
    (cfg : Config) (idx : Nat) (f : Str) (fs : List Str) :
    runTool resolver today ans cfg idx (f :: fs) =
      if (processFile resolver today ans cfg idx f).res.abortCfg.isSome then
        ⟨(processFile resolver today ans cfg idx f).disk :: fs,
          (processFile resolver today ans cfg idx f).res.abortCfg.getD cfg, 0,
          promptsOf (processFile resolver today ans cfg idx f).res.logs⟩
      else
        ⟨(processFile resolver today ans cfg idx f).disk ::
            (runTool resolver today ans (processFile resolver today ans cfg idx f).res.cfg
              (processFile resolver today ans cfg idx f).res.idx fs).files,
          (runTool resolver today ans (processFile resolver today ans cfg idx f).res.cfg
            (processFile resolver today ans cfg idx f).res.idx fs).persisted,
          (runTool resolver today ans (processFile resolver today ans cfg idx f).res.cfg
            (processFile resolver today ans cfg idx f).res.idx fs).exitCode,
          promptsOf (processFile resolver today ans cfg idx f).res.logs ++
            (runTool resolver today ans (processFile resolver today ans cfg idx f).res.cfg
              (processFile resolver today ans cfg idx f).res.idx fs).prompts⟩ := rfl

/-! Facts about line splitting and joining. -/

lemma splitLines_ne_nil : ∀ s : Str, splitLines s ≠ [] := by
  intro s
  cases s with
  | nil => intro h; cases h
  | cons c cs =>
    rw [splitLines]
    by_cases h : c = '\n'
    · simp [h]
    · simp only [h, Bool.false_eq_true, if_false]
      cases hs : splitLines cs with
      | nil => intro hc; cases hc
      | cons p ps => intro hc; cases hc

lemma joinLines_single (l : Str) : joinLines [l] = l := rfl

lemma joinLines_cons_cons (l l2 : Str) (ls : List Str) :
    joinLines (l :: l2 :: ls) = l ++ ['\n'] ++ joinLines (l2 :: ls) := rfl

lemma joinLines_splitLines : ∀ s : Str, joinLines (splitLines s) = s := by
  intro s
  induction s with
  | nil => rfl
  | cons c cs ih =>
    rw [splitLines]
    by_cases h : c = '\n'
    · subst h
      rw [if_pos rfl]
      cases hs : splitLines cs with
      | nil => exact absurd hs (splitLines_ne_nil cs)
      | cons p ps =>
        rw [joinLines_cons_cons]
        rw [← hs, ih]
        rfl
    · rw [if_neg h]
      cases hs : splitLines cs with
      | nil => exact absurd hs (splitLines_ne_nil cs)
      | cons p ps =>
        cases ps with
        | nil =>
          rw [joinLines_single]
          have hj : joinLines (splitLines cs) = cs := ih
          rw [hs, joinLines_single] at hj
          rw [hj]
        | cons q qs =>
          rw [joinLines_cons_cons]
          have hj : joinLines (splitLines cs) = cs := ih
          rw [hs, joinLines_cons_cons] at hj
          rw [show (c :: p) ++ ['\n'] ++ joinLines (q :: qs) =
            c :: (p ++ ['\n'] ++ joinLines (q :: qs)) from by simp]
          rw [show p ++ ['\n'] ++ joinLines (q :: qs) = cs from hj]

lemma splitLines_no_newline : ∀ s : Str, ∀ l ∈ splitLines s, '\n' ∉ l := by
  intro s
  induction s with
  | nil =>
    intro l hl
    rw [splitLines] at hl
    rcases List.mem_cons.mp hl with rfl | hl
    · simp
    · cases hl
  | cons c cs ih =>
    intro l hl
    rw [splitLines] at hl
    by_cases h : c = '\n'
    · rw [if_pos h] at hl
      rcases List.mem_cons.mp hl with rfl | hl
      · simp
      · exact ih l hl
    · rw [if_neg h] at hl
      cases hs : splitLines cs with
      | nil => exact absurd hs (splitLines_ne_nil cs)
      | cons p ps =>
        rw [hs] at hl
        rcases List.mem_cons.mp hl with rfl | hl
        · intro hmem
          rcases List.mem_cons.mp hmem with hc | hmem
          · exact h hc.symm
          · exact ih p (hs ▸ List.mem_cons_self _ _) hmem
        · exact ih l (hs ▸ List.mem_cons_of_mem _ hl)

lemma splitLines_single {l : Str} (h : '\n' ∉ l) : splitLines l = [l] := by
  induction l with
  | nil => rfl
  | cons c cs ih =>
    rw [splitLines]
    have hc : ¬(c = '\n') := fun hc => h (hc ▸ List.mem_cons_self _ _)
    rw [if_neg hc]
    rw [ih (fun hm => h (List.mem_cons_of_mem _ hm))]

lemma splitLines_append {l : Str} (h : '\n' ∉ l) (rest : Str) :
    splitLines (l ++ '\n' :: rest) = l :: splitLines rest := by
  induction l with
  | nil => simp [splitLines]
  | cons c cs ih =>
    have hc : ¬(c = '\n') := fun hc => h (hc ▸ List.mem_cons_self _ _)
    rw [List.cons_append, splitLines, if_neg hc,
      ih (fun hm => h (List.mem_cons_of_mem _ hm))]

lemma splitLines_joinLines :
    ∀ ls : List Str, ls ≠ [] → (∀ l ∈ ls, '\n' ∉ l) →
      splitLines (joinLines ls) = ls := by
  intro ls
  induction ls with
  | nil => intro h; exact absurd rfl h
  | cons l ls ih =>
    intro _ hnl
    cases ls with
    | nil =>
      rw [joinLines]
      exact splitLines_single (hnl l (List.mem_cons_self _ _))
    | cons l2 ls2 =>
      rw [joinLines_cons_cons, show l ++ ['\n'] ++ joinLines (l2 :: ls2) =
        l ++ '\n' :: joinLines (l2 :: ls2) from by simp]
      rw [splitLines_append (hnl l (List.mem_cons_self _ _))]
      rw [ih (by intro hc; cases hc) (fun d hd => hnl d (List.mem_cons_of_mem _ hd))]

/-! Well-formedness of the remote and of the acceptance cache: resolved commit
ids are 40 lowercase hex characters (as the GitHub API returns them). -/

def resolverWF (resolver : Resolver) : Prop :=
  ∀ o r t s, resolver o r t = Except.ok s → isHex40 s = true

def mapWF (m : List (Str × Str)) : Prop :=
  ∀ k v, lookupMap m k = some v → isHex40 v = true

/-- Inversion of a rewrite: a line is rewritten only from the cache-hit branch
or the affirmative-answer branch, and the result is the rewriteLine text. -/
lemma processLine_rewritten_inv {resolver : Resolver} {today : Str} {ans : Nat → Str}
    {cfg : Config} {idx : Nat} {line : Str}
    (h : (processLine resolver today ans cfg idx line).rewritten = true) :
    ∃ u sha, findUsage line = some u ∧
      (isAllowedOrg cfg u.owner || isHex40 u.tag) = false ∧
      (processLine resolver today ans cfg idx line).line =
        rewriteLine line u.owner u.repo sha u.tag today ∧
      ((lookupMap cfg.acceptedMapping (mkKey u.owner u.repo u.tag) = some sha ∧
          (processLine resolver today ans cfg idx line).cacheHit = true ∧
          (processLine resolver today ans cfg idx line).answerUsed = none ∧
          (processLine resolver today ans cfg idx line).promptedKey = none) ∨
        (lookupMap cfg.acceptedMapping (mkKey u.owner u.repo u.tag) = none ∧
          resolver u.owner u.repo u.tag = Except.ok sha ∧
          (processLine resolver today ans cfg idx line).cacheHit = false ∧
          (processLine resolver today ans cfg idx line).answerUsed = some (ans idx) ∧
          (processLine resolver today ans cfg idx line).promptedKey =
            some (mkKey u.owner u.repo u.tag) ∧
          normalizeAnswer (ans idx) = str "y")) := by
  cases hf : findUsage line with
  | none => rw [processLine_none hf] at h; cases h
  | some u =>
    cases hskip : (isAllowedOrg cfg u.owner || isHex40 u.tag) with
    | true => rw [processLine_skip hf hskip] at h; cases h
    | false =>
      cases hl : lookupMap cfg.acceptedMapping (mkKey u.owner u.repo u.tag) with
      | some sha =>
        refine ⟨u, sha, rfl, hskip, ?_, Or.inl ⟨hl, ?_, ?_, ?_⟩⟩ <;>
          rw [processLine_cache hf hskip hl]
      | none =>
        cases hres : resolver u.owner u.repo u.tag with
        | error e => rw [processLine_err hf hskip hl hres] at h; cases h
        | ok sha =>
          by_cases hy : normalizeAnswer (ans idx) = str "y"
          · refine ⟨u, sha, rfl, hskip, ?_, Or.inr ⟨hl, hres, ?_, ?_, ?_, hy⟩⟩ <;>
              rw [processLine_prompt_y hf hskip hl hres hy]
          · exfalso
            by_cases hn : normalizeAnswer (ans idx) = str "n"
            · rw [processLine_prompt_n hf hskip hl hres hn] at h; cases h
            · by_cases haa : normalizeAnswer (ans idx) = str "a"
              · rw [processLine_prompt_a hf hskip hl hres haa] at h; cases h
              · by_cases hq : normalizeAnswer (ans idx) = str "q"
                · rw [processLine_prompt_q hf hskip hl hres hq] at h; cases h
                · rw [processLine_prompt_other hf hskip hl hres hy hn haa hq] at h
                  cases h

/-- A line that is not rewritten keeps its text. -/
lemma processLine_not_rewritten_line {resolver : Resolver} {today : Str} {ans : Nat → Str}
    {cfg : Config} {idx : Nat} {line : Str}
    (h : (processLine resolver today ans cfg idx line).rewritten = false) :
    (processLine resolver today ans cfg idx line).line = line := by
  cases hf : findUsage line with
  | none => rw [processLine_none hf]
  | some u =>
    cases hskip : (isAllowedOrg cfg u.owner || isHex40 u.tag) with
    | true => rw [processLine_skip hf hskip]
    | false =>
      cases hl : lookupMap cfg.acceptedMapping (mkKey u.owner u.repo u.tag) with
      | some sha => rw [processLine_cache hf hskip hl] at h; cases h
      | none =>
        cases hres : resolver u.owner u.repo u.tag with
        | error e => rw [processLine_err hf hskip hl hres]
        | ok sha =>
          by_cases hy : normalizeAnswer (ans idx) = str "y"
          · rw [processLine_prompt_y hf hskip hl hres hy] at h; cases h
          · by_cases hn : normalizeAnswer (ans idx) = str "n"
            · rw [processLine_prompt_n hf hskip hl hres hn]
            · by_cases haa : normalizeAnswer (ans idx) = str "a"
              · rw [processLine_prompt_a hf hskip hl hres haa]
              · by_cases hq : normalizeAnswer (ans idx) = str "q"
                · rw [processLine_prompt_q hf hskip hl hres hq]
                · rw [processLine_prompt_other hf hskip hl hres hy hn haa hq]

/-- An abort ("q") leaves the line, the config and the rewritten flag alone. -/
lemma processLine_aborted_inv {resolver : Resolver} {today : Str} {ans : Nat → Str}
    {cfg : Config} {idx : Nat} {line : Str}
    (h : (processLine resolver today ans cfg idx line).aborted = true) :
    (processLine resolver today ans cfg idx line).rewritten = false ∧
    (processLine resolver today ans cfg idx line).cfg = cfg := by
  cases hf : findUsage line with
  | none => rw [processLine_none hf] at h ⊢; cases h
  | some u =>
    cases hskip : (isAllowedOrg cfg u.owner || isHex40 u.tag) with
    | true => rw [processLine_skip hf hskip] at h ⊢; cases h
    | false =>
      cases hl : lookupMap cfg.acceptedMapping (mkKey u.owner u.repo u.tag) with
      | some sha => rw [processLine_cache hf hskip hl] at h ⊢; cases h
      | none =>
        cases hres : resolver u.owner u.repo u.tag with
        | error e => rw [processLine_err hf hskip hl hres] at h ⊢; cases h
        | ok sha =>
          by_cases hy : normalizeAnswer (ans idx) = str "y"
          · rw [processLine_prompt_y hf hskip hl hres hy] at h ⊢; cases h
          · by_cases hn : normalizeAnswer (ans idx) = str "n"
            · rw [processLine_prompt_n hf hskip hl hres hn] at h ⊢; cases h
            · by_cases haa : normalizeAnswer (ans idx) = str "a"
              · rw [processLine_prompt_a hf hskip hl hres haa] at h ⊢; cases h
              · by_cases hq : normalizeAnswer (ans idx) = str "q"
                · rw [processLine_prompt_q hf hskip hl hres hq]
                  exact ⟨rfl, rfl⟩
                · rw [processLine_prompt_other hf hskip hl hres hy hn haa hq] at h ⊢
                  cases h

/-- Every log entry of the per-file loop is the processLine result for some
config, cursor and line. -/
lemma processLines_logs_shape (resolver : Resolver) (today : Str) (ans : Nat → Str) :
    ∀ (lines : List Str) (cfg : Config) (idx : Nat),
      ∀ lg ∈ (processLines resolver today ans cfg idx lines).logs,
        ∃ cfg' idx' l, lg = processLine resolver today ans cfg' idx' l := by
  intro lines
  induction lines with
  | nil => intro cfg idx lg hlg; cases hlg
  | cons l ls ih =>
    intro cfg idx lg hlg
    rw [processLines] at hlg
    by_cases hab : (processLine resolver today ans cfg idx l).aborted
    · rw [if_pos hab] at hlg
      rcases List.mem_cons.mp hlg with rfl | hlg
      · exact ⟨cfg, idx, l, rfl⟩
      · cases hlg
    · rw [if_neg hab] at hlg
      rcases List.mem_cons.mp hlg with rfl | hlg
      · exact ⟨cfg, idx, l, rfl⟩
      · exact ih _ _ lg hlg

/-- Claim C4: a line is rewritten only when its key was already in the
acceptance cache at the moment the line was examined (the cacheHit flag of the
log entry, in which case no prompt is shown), or when the prompt shown for
that line's exact key during the current run was answered "y"; decline,
allow, abort and unrecognized answers leave the rewritten flag false. -/
theorem claim4_rewrite_requires_consent :
    ∀ (resolver : Resolver) (today : Str) (ans : Nat → Str) (cfg : Config) (idx : Nat)
      (lines : List Str),
      ∀ lg ∈ (processLines resolver today ans cfg idx lines).logs,
        lg.rewritten = true →
        (lg.cacheHit = true ∧ lg.promptedKey = none ∧ lg.answerUsed = none) ∨
        (lg.cacheHit = false ∧ ∃ k a, lg.promptedKey = some k ∧ lg.answerUsed = some a ∧
          normalizeAnswer a = str "y") := by
  intro resolver today ans cfg idx lines lg hlg hrw
  obtain ⟨cfg', idx', l, rfl⟩ := processLines_logs_shape resolver today ans lines cfg idx lg hlg
  obtain ⟨u, sha, hf, hskip, hline, hcase⟩ := processLine_rewritten_inv hrw
  rcases hcase with ⟨hl, hch, hau, hpk⟩ | ⟨hl, hres, hch, hau, hpk, hy⟩
  · exact Or.inl ⟨hch, hpk, hau⟩
  · exact Or.inr ⟨hch, mkKey u.owner u.repo u.tag, ans idx', hpk, hau, hy⟩

/-- Witness for C4: the theorem applied to the log entry of a concrete run in
which the only line is rewritten after a "y" answer. -/
theorem claim4_witness :
    ((processLine (fun _ _ _ => Except.ok (List.replicate 40 'a')) (str "2024-01-01")
        (fun _ => str "y") ⟨[], []⟩ 0 (str "uses: o/r@v1")).cacheHit = true ∧
      (processLine (fun _ _ _ => Except.ok (List.replicate 40 'a')) (str "2024-01-01")
        (fun _ => str "y") ⟨[], []⟩ 0 (str "uses: o/r@v1")).promptedKey = none ∧
      (processLine (fun _ _ _ => Except.ok (List.replicate 40 'a')) (str "2024-01-01")
        (fun _ => str "y") ⟨[], []⟩ 0 (str "uses: o/r@v1")).answerUsed = none) ∨
    ((processLine (fun _ _ _ => Except.ok (List.replicate 40 'a')) (str "2024-01-01")
        (fun _ => str "y") ⟨[], []⟩ 0 (str "uses: o/r@v1")).cacheHit = false ∧
      ∃ k a,
        (processLine (fun _ _ _ => Except.ok (List.replicate 40 'a')) (str "2024-01-01")
          (fun _ => str "y") ⟨[], []⟩ 0 (str "uses: o/r@v1")).promptedKey = some k ∧
        (processLine (fun _ _ _ => Except.ok (List.replicate 40 'a')) (str "2024-01-01")
          (fun _ => str "y") ⟨[], []⟩ 0 (str "uses: o/r@v1")).answerUsed = some a ∧
        normalizeAnswer a = str "y") :=
  claim4_rewrite_requires_consent (fun _ _ _ => Except.ok (List.replicate 40 'a'))
    (str "2024-01-01") (fun _ => str "y") ⟨[], []⟩ 0 [str "uses: o/r@v1"]
    (processLine (fun _ _ _ => Except.ok (List.replicate 40 'a')) (str "2024-01-01")
      (fun _ => str "y") ⟨[], []⟩ 0 (str "uses: o/r@v1"))
    (by decide) (by decide)

/-- Claim C5: a reference whose ref is a 40-char lowercase hex commit id, or
whose owner is allow-listed (case-insensitively), is skipped outright: the
resolver is never invoked (resolverCalled stays false), no prompt is shown,
and the line, config and cursor are unchanged. -/
theorem claim5_policy_skip :
    ∀ (resolver : Resolver) (today : Str) (ans : Nat → Str) (cfg : Config) (idx : Nat)
      (line : Str) (u : Usage),
      findUsage line = some u →
      (isHex40 u.tag = true ∨ isAllowedOrg cfg u.owner = true) →
      processLine resolver today ans cfg idx line =
        ⟨line, false, cfg, idx, none, none, false, false, false⟩ := by
  intro resolver today ans cfg idx line u hf h
  apply processLine_skip hf
  rcases h with h | h
  · rw [h, Bool.or_true]
  · rw [h, Bool.true_or]

/-- Witness for C5: an already-pinned concrete line is left untouched with no
resolver call. -/
theorem claim5_witness :
    processLine (fun _ _ _ => Except.error []) (str "2024-01-01") (fun _ => str "y")
        ⟨[], []⟩ 0 (str "uses: o/r@" ++ List.replicate 40 'a') =
      ⟨str "uses: o/r@" ++ List.replicate 40 'a', false, ⟨[], []⟩, 0,
        none, none, false, false, false⟩ :=
  claim5_policy_skip (fun _ _ _ => Except.error []) (str "2024-01-01") (fun _ => str "y")
    ⟨[], []⟩ 0 (str "uses: o/r@" ++ List.replicate 40 'a')
    ⟨str "o", str "r", List.replicate 40 'a'⟩ (by decide) (Or.inl (by decide))

/-- A rewritten line parses again, with the same owner and repo and the (hex)
commit id as the ref. -/
lemma rewritten_line_parse {resolver : Resolver} {today : Str} {ans : Nat → Str}
    {cfg : Config} {idx : Nat} {line : Str}
    (hwf : resolverWF resolver) (hmw : mapWF cfg.acceptedMapping)
    (h : (processLine resolver today ans cfg idx line).rewritten = true) :
    ∃ u sha, findUsage line = some u ∧ isHex40 sha = true ∧
      findUsage ((processLine resolver today ans cfg idx line).line) =
        some ⟨u.owner, u.repo, sha⟩ := by
  obtain ⟨u, sha, hf, hskip, hline, hcase⟩ := processLine_rewritten_inv h
  have hshape := findUsage_props _ _ hf
  have hhex : isHex40 sha = true := by
    rcases hcase with ⟨hl, _⟩ | ⟨_, hres, _⟩
    · exact hmw _ _ hl
    · exact hwf _ _ _ _ hres
  refine ⟨u, sha, hf, hhex, ?_⟩
  rw [hline]
  exact findUsage_rewriteLine line u.owner u.repo sha u.tag today
    hshape.1 hshape.2.2.1 hshape.2.2.2.1 hshape.2.2.2.2.1 hhex

/-- A line whose parsed ref is a full hex commit id is inert for any later
processing: unchanged, no prompt, no resolver call, no state change. -/
lemma pinned_inert {l : Str} {u : Usage}
    (hparse : findUsage l = some u) (hhex : isHex40 u.tag = true) :
    ∀ (resolver2 : Resolver) (today2 : Str) (ans2 : Nat → Str) (cfg2 : Config) (idx2 : Nat),
      processLine resolver2 today2 ans2 cfg2 idx2 l =
        ⟨l, false, cfg2, idx2, none, none, false, false, false⟩ :=
  fun _ _ _ _ _ => processLine_skip hparse (by rw [hhex, Bool.or_true])

/-- Claim C10: once a run has rewritten a line, the text after the at-sign is
a 40-hex commit id followed by the provenance comment, so every later
processing of that line parses the ref as the commit id, skips it at the
already-pinned check (no resolver call, no prompt), and leaves it
byte-for-byte unchanged — in particular the date token of a master/main pin is
never refreshed after the rewrite. -/
theorem claim10_rewritten_lines_frozen :
    ∀ (resolver : Resolver) (today : Str) (ans : Nat → Str) (cfg : Config) (idx : Nat)
      (line : Str),
      resolverWF resolver → mapWF cfg.acceptedMapping →
      (processLine resolver today ans cfg idx line).rewritten = true →
      (∃ u sha, findUsage line = some u ∧ isHex40 sha = true ∧
        findUsage ((processLine resolver today ans cfg idx line).line) =
          some ⟨u.owner, u.repo, sha⟩) ∧
      ∀ (resolver2 : Resolver) (today2 : Str) (ans2 : Nat → Str) (cfg2 : Config) (idx2 : Nat),
        processLine resolver2 today2 ans2 cfg2 idx2
            ((processLine resolver today ans cfg idx line).line) =
          ⟨(processLine resolver today ans cfg idx line).line, false, cfg2, idx2,
            none, none, false, false, false⟩ := by
  intro resolver today ans cfg idx line hwf hmw h
  obtain ⟨u, sha, hf, hhex, hparse⟩ := rewritten_line_parse hwf hmw h
  refine ⟨⟨u, sha, hf, hhex, hparse⟩, ?_⟩
  intro resolver2 today2 ans2 cfg2 idx2
  exact pinned_inert hparse (by exact hhex) resolver2 today2 ans2 cfg2 idx2

/-- Witness for C10: a concrete rewrite (a "y" answer on uses o/r at v1) whose
result line is untouched by a later processing under a different config, date
and resolver. -/
theorem claim10_witness :
    processLine (fun _ _ _ => Except.error []) (str "2025-05-05") (fun _ => str "n")
        ⟨[], []⟩ 7
        ((processLine (fun _ _ _ => Except.ok (List.replicate 40 'a'))
          (str "2024-01-01") (fun _ => str "y") ⟨[], []⟩ 0 (str "uses: o/r@v1")).line) =
      ⟨(processLine (fun _ _ _ => Except.ok (List.replicate 40 'a'))
          (str "2024-01-01") (fun _ => str "y") ⟨[], []⟩ 0 (str "uses: o/r@v1")).line,
        false, ⟨[], []⟩, 7, none, none, false, false, false⟩ :=
  (claim10_rewritten_lines_frozen (fun _ _ _ => Except.ok (List.replicate 40 'a'))
      (str "2024-01-01") (fun _ => str "y") ⟨[], []⟩ 0 (str "uses: o/r@v1")
      (by intro o r t s hs; injection hs with hs; rw [← hs]; decide)
      (by intro k v hv; cases hv)
      (by decide)).2
    (fun _ _ _ => Except.error []) (str "2025-05-05") (fun _ => str "n") ⟨[], []⟩ 7

/-! Character-membership facts: the captured groups are made of characters of
the matched line. -/

lemma matchAfterUses_mem {rest : Str} {u : Usage} (h : matchAfterUses rest = some u) :
    (∀ c ∈ u.owner, c ∈ rest) ∧ (∀ c ∈ u.repo, c ∈ rest) ∧ (∀ c ∈ u.tag, c ∈ rest) := by
  rw [matchAfterUses] at h
  cases hb : breakAt (fun c => c = '/') rest with
  | none => rw [hb] at h; cases h
  | some pr =>
    obtain ⟨before, after⟩ := pr
    rw [hb] at h
    simp only at h
    obtain ⟨_, ch, _, heq⟩ := breakAt_eq_some _ _ _ hb
    have hbef : ∀ c ∈ before, c ∈ rest := by
      intro c hc
      rw [heq]
      exact List.mem_append.mpr (Or.inl hc)
    have haft : ∀ c ∈ after, c ∈ rest := by
      intro c hc
      rw [heq]
      exact List.mem_append.mpr (Or.inr (List.mem_cons_of_mem _ hc))
    cases hq : (if (before.takeWhile reSpace).length < before.length
        then some (before.drop (before.takeWhile reSpace).length)
        else if 1 ≤ before.length then some (before.drop (before.length - 1))
        else none) with
    | none => rw [hq] at h; cases h
    | some owner =>
      rw [hq] at h
      simp only at h
      have howner : ∀ c ∈ owner, c ∈ before := by
        by_cases hlt : (before.takeWhile reSpace).length < before.length
        · rw [if_pos hlt] at hq
          injection hq with hq
          intro c hc
          exact List.mem_of_mem_drop (hq ▸ hc)
        · rw [if_neg hlt] at hq
          by_cases hone : 1 ≤ before.length
          · rw [if_pos hone] at hq
            injection hq with hq
            intro c hc
            exact List.mem_of_mem_drop (hq ▸ hc)
          · rw [if_neg hone] at hq
            cases hq
      cases hb2 : breakAt (fun c => c = '@') after with
      | none => rw [hb2] at h; cases h
      | some pr2 =>
        obtain ⟨rbefore, rafter⟩ := pr2
        rw [hb2] at h
        simp only at h
        obtain ⟨_, ch2, _, heq2⟩ := breakAt_eq_some _ _ _ hb2
        by_cases hre : rbefore.isEmpty
        · rw [if_pos hre] at h; cases h
        · rw [if_neg hre] at h
          by_cases hte : (rafter.takeWhile (fun c => !reSpace c)).isEmpty
          · rw [if_pos hte] at h; cases h
          · rw [if_neg hte] at h
            injection h with h
            subst h
            refine ⟨?_, ?_, ?_⟩
            · intro c hc
              exact hbef c (howner c hc)
            · intro c hc
              apply haft
              rw [heq2]
              exact List.mem_append.mpr (Or.inl hc)
            · intro c hc
              apply haft
              rw [heq2]
              refine List.mem_append.mpr (Or.inr (List.mem_cons_of_mem _ ?_))
              exact (List.takeWhile_sublist _).subset hc

lemma findUsage_mem : ∀ (l : Str) (u : Usage), findUsage l = some u →
    (∀ c ∈ u.owner, c ∈ l) ∧ (∀ c ∈ u.repo, c ∈ l) ∧ (∀ c ∈ u.tag, c ∈ l) := by
  intro l
  induction l with
  | nil => intro u h; cases h
  | cons c cs ih =>
    intro u h
    rw [findUsage] at h
    cases hm : matchAt (c :: cs) with
    | some u' =>
      rw [hm] at h
      injection h with h
      subst h
      obtain ⟨htake, hafter⟩ := matchAt_eq_some hm
      obtain ⟨h1, h2, h3⟩ := matchAfterUses_mem hafter
      have hdropmem : ∀ d : Char, d ∈ (c :: cs).drop 5 → d ∈ c :: cs := by
        intro d hd
        exact List.mem_of_mem_drop hd
      exact ⟨fun d hd => hdropmem d (h1 d hd), fun d hd => hdropmem d (h2 d hd),
        fun d hd => hdropmem d (h3 d hd)⟩
    | none =>
      rw [hm] at h
      obtain ⟨h1, h2, h3⟩ := ih u h
      exact ⟨fun d hd => List.mem_cons_of_mem _ (h1 d hd),
        fun d hd => List.mem_cons_of_mem _ (h2 d hd),
        fun d hd => List.mem_cons_of_mem _ (h3 d hd)⟩

lemma not_mem_append {c : Char} {a b : Str} (ha : c ∉ a) (hb : c ∉ b) : c ∉ a ++ b := by
  intro h
  rcases List.mem_append.mp h with h | h
  · exact ha h
  · exact hb h

lemma rewriteLine_no_newline {line o r sh tag today : Str}
    (hline : '\n' ∉ line) (htoday : '\n' ∉ today)
    (ho : ∀ c ∈ o, c ∈ line) (hr : ∀ c ∈ r, c ∈ line) (ht : ∀ c ∈ tag, c ∈ line)
    (hsh : isHex40 sh = true) :
    '\n' ∉ rewriteLine line o r sh tag today := by
  have k1 : '\n' ∉ leadingWS line := fun h => hline ((List.takeWhile_sublist _).subset h)
  have k3 : '\n' ∉ o := fun h => hline (ho _ h)
  have k4 : '\n' ∉ r := fun h => hline (hr _ h)
  have k5 : '\n' ∉ sh := isHex40_no_newline hsh
  have k6 : '\n' ∉ tag := fun h => hline (ht _ h)
  have hvc : '\n' ∉ versionComment tag today := by
    rw [versionComment]
    by_cases hmaster : tag = str "master"
    · rw [if_pos hmaster]
      exact not_mem_append (not_mem_append (not_mem_append (by decide) (by decide))
        (by decide)) htoday
    · rw [if_neg hmaster]
      exact not_mem_append (by decide) k6
  rw [rewriteLine]
  exact not_mem_append (not_mem_append (not_mem_append (not_mem_append (not_mem_append
    (not_mem_append (not_mem_append (not_mem_append k1 (by decide)) k3) (by decide)) k4)
    (by decide)) k5) (by decide)) hvc

/-- Only the affirmative answer touches the acceptance cache, and it inserts
the freshly resolved (hex) commit id, so cache well-formedness is preserved. -/
lemma processLine_mapWF {resolver : Resolver} {today : Str} {ans : Nat → Str}
    {cfg : Config} {idx : Nat} {line : Str}
    (hwf : resolverWF resolver) (hm : mapWF cfg.acceptedMapping) :
    mapWF (processLine resolver today ans cfg idx line).cfg.acceptedMapping := by
  cases hf : findUsage line with
  | none => rw [processLine_none hf]; exact hm
  | some u =>
    cases hskip : (isAllowedOrg cfg u.owner || isHex40 u.tag) with
    | true => rw [processLine_skip hf hskip]; exact hm
    | false =>
      cases hl : lookupMap cfg.acceptedMapping (mkKey u.owner u.repo u.tag) with
      | some sha => rw [processLine_cache hf hskip hl]; exact hm
      | none =>
        cases hres : resolver u.owner u.repo u.tag with
        | error e => rw [processLine_err hf hskip hl hres]; exact hm
        | ok sha =>
          by_cases hy : normalizeAnswer (ans idx) = str "y"
          · rw [processLine_prompt_y hf hskip hl hres hy]
            intro k v hkv
            rw [insertMap, lookupMap] at hkv
            by_cases hk : mkKey u.owner u.repo u.tag = k
            · rw [if_pos hk] at hkv
              injection hkv with hkv
              rw [← hkv]
              exact hwf _ _ _ _ hres
            · rw [if_neg hk] at hkv
              exact hm k v hkv
          · by_cases hn : normalizeAnswer (ans idx) = str "n"
            · rw [processLine_prompt_n hf hskip hl hres hn]; exact hm
            · by_cases haa : normalizeAnswer (ans idx) = str "a"
              · rw [processLine_prompt_a hf hskip hl hres haa]; exact hm
              · by_cases hq : normalizeAnswer (ans idx) = str "q"
                · rw [processLine_prompt_q hf hskip hl hres hq]; exact hm
                · rw [processLine_prompt_other hf hskip hl hres hy hn haa hq]; exact hm

lemma processLine_no_newline {resolver : Resolver} {today : Str} {ans : Nat → Str}
    {cfg : Config} {idx : Nat} {line : Str}
    (hwf : resolverWF resolver) (hm : mapWF cfg.acceptedMapping)
    (hline : '\n' ∉ line) (htoday : '\n' ∉ today) :
    '\n' ∉ (processLine resolver today ans cfg idx line).line := by
  cases hrw : (processLine resolver today ans cfg idx line).rewritten with
  | false => rw [processLine_not_rewritten_line hrw]; exact hline
  | true =>
    obtain ⟨u, sha, hf, _, hlineEq, hcase⟩ := processLine_rewritten_inv hrw
    have hhex : isHex40 sha = true := by
      rcases hcase with ⟨hl, _⟩ | ⟨_, hres, _⟩
      · exact hm _ _ hl
      · exact hwf _ _ _ _ hres
    obtain ⟨h1, h2, h3⟩ := findUsage_mem line u hf
    rw [hlineEq]
    exact rewriteLine_no_newline hline htoday h1 h2 h3 hhex

/-- The per-file loop keeps the line count. -/
lemma processLines_length (resolver : Resolver) (today : Str) (ans : Nat → Str) :
    ∀ (lines : List Str) (cfg : Config) (idx : Nat),
      (processLines resolver today ans cfg idx lines).lines.length = lines.length := by
  intro lines
  induction lines with
  | nil => intro cfg idx; rfl
  | cons l ls ih =>
    intro cfg idx
    rw [processLines]
    by_cases hab : (processLine resolver today ans cfg idx l).aborted
    · rw [if_pos hab]
    · rw [if_neg hab]
      show ((processLine resolver today ans cfg idx l).line ::
        (processLines resolver today ans _ _ ls).lines).length = (l :: ls).length
      rw [List.length_cons, List.length_cons, ih]

/-- Lines whose log entry shows no rewrite are preserved verbatim in the
in-memory line array. -/
lemma processLines_preserve (resolver : Resolver) (today : Str) (ans : Nat → Str) :
    ∀ (lines : List Str) (cfg : Config) (idx : Nat) (i : Nat) (lg : LineResult),
      (processLines resolver today ans cfg idx lines).logs.get? i = some lg →
      lg.rewritten = false →
      (processLines resolver today ans cfg idx lines).lines.get? i = lines.get? i := by
  intro lines
  induction lines with
  | nil => intro cfg idx i lg h; cases h
  | cons l ls ih =>
    intro cfg idx i lg hlg hrw
    rw [processLines] at hlg ⊢
    by_cases hab : (processLine resolver today ans cfg idx l).aborted
    · rw [if_pos hab] at hlg ⊢
    · rw [if_neg hab] at hlg ⊢
      cases i with
      | zero =>
        injection hlg with hlg
        subst hlg
        show some (processLine resolver today ans cfg idx l).line = some l
        rw [processLine_not_rewritten_line hrw]
      | succ i =>
        exact ih _ _ i lg hlg hrw

/-- The changed flag records exactly "some log entry rewrote its line". -/
lemma processLines_changed_iff (resolver : Resolver) (today : Str) (ans : Nat → Str) :
    ∀ (lines : List Str) (cfg : Config) (idx : Nat),
      ((processLines resolver today ans cfg idx lines).changed = true ↔
        ∃ lg ∈ (processLines resolver today ans cfg idx lines).logs,
          lg.rewritten = true) := by
  intro lines
  induction lines with
  | nil =>
    intro cfg idx
    constructor
    · intro h; cases h
    · intro ⟨lg, hlg, _⟩; cases hlg
  | cons l ls ih =>
    intro cfg idx
    rw [processLines]
    by_cases hab : (processLine resolver today ans cfg idx l).aborted
    · rw [if_pos hab]
      constructor
      · intro h; cases h
      · intro ⟨lg, hlg, hrw⟩
        rcases List.mem_cons.mp hlg with rfl | hlg
        · rw [(processLine_aborted_inv hab).1] at hrw; cases hrw
        · cases hlg
    · rw [if_neg hab]
      show ((processLine resolver today ans cfg idx l).rewritten ||
          (processLines resolver today ans _ _ ls).changed) = true ↔ _
      rw [Bool.or_eq_true]
      constructor
      · intro h
        rcases h with h | h
        · exact ⟨processLine resolver today ans cfg idx l, List.mem_cons_self _ _, h⟩
        · obtain ⟨lg, hlg, hrw⟩ := (ih _ _).mp h
          exact ⟨lg, List.mem_cons_of_mem _ hlg, hrw⟩
      · intro ⟨lg, hlg, hrw⟩
        rcases List.mem_cons.mp hlg with rfl | hlg
        · exact Or.inl hrw
        · exact Or.inr ((ih _ _).mpr ⟨lg, hlg, hrw⟩)

/-- Newline-freedom and cache well-formedness are preserved across the
per-file loop. -/
lemma processLines_no_newline {resolver : Resolver} {today : Str} {ans : Nat → Str}
    (hwf : resolverWF resolver) (htoday : '\n' ∉ today) :
    ∀ (lines : List Str) (cfg : Config) (idx : Nat),
      mapWF cfg.acceptedMapping → (∀ l ∈ lines, '\n' ∉ l) →
      (∀ l ∈ (processLines resolver today ans cfg idx lines).lines, '\n' ∉ l) ∧
        mapWF (processLines resolver today ans cfg idx lines).cfg.acceptedMapping := by
  intro lines
  induction lines with
  | nil =>
    intro cfg idx hm _
    refine ⟨?_, hm⟩
    intro l hl
    cases hl
  | cons l ls ih =>
    intro cfg idx hm hnl
    rw [processLines]
    by_cases hab : (processLine resolver today ans cfg idx l).aborted
    · rw [if_pos hab]
      exact ⟨hnl, hm⟩
    · rw [if_neg hab]
      have hm' := @processLine_mapWF resolver today ans cfg idx l hwf hm
      obtain ⟨ihl, ihm⟩ := ih _ (processLine resolver today ans cfg idx l).idx hm'
        (fun d hd => hnl d (List.mem_cons_of_mem _ hd))
      refine ⟨?_, ihm⟩
      intro d hd
      rcases List.mem_cons.mp hd with rfl | hd
      · exact processLine_no_newline hwf hm (hnl l (List.mem_cons_self _ _)) htoday
      · exact ihl d hd

/-- Claim C7: (a) a rewritten line is exactly the original leading whitespace
followed by the new usage text; (b) lines not rewritten are preserved verbatim
in the line array; (c) a file whose changed flag is false is not written back
(the on-disk content is the original, so the line-ending convention is kept
verbatim); (d) the file is considered modified exactly when at least one line
was rewritten; (e) in a written-back file, the lines that were not rewritten
are byte-for-byte the original lines. -/
theorem claim7_rewrite_frame :
    (∀ (resolver : Resolver) (today : Str) (ans : Nat → Str) (cfg : Config) (idx : Nat)
        (line : Str),
      (processLine resolver today ans cfg idx line).rewritten = true →
      ∃ u sha, findUsage line = some u ∧
        (processLine resolver today ans cfg idx line).line =
          leadingWS line ++ str "uses: " ++ u.owner ++ ['/'] ++ u.repo ++ ['@'] ++ sha ++
            [' '] ++ versionComment u.tag today) ∧
    (∀ (resolver : Resolver) (today : Str) (ans : Nat → Str) (cfg : Config) (idx : Nat)
        (lines : List Str) (i : Nat) (lg : LineResult),
      (processLines resolver today ans cfg idx lines).logs.get? i = some lg →
      lg.rewritten = false →
      (processLines resolver today ans cfg idx lines).lines.get? i = lines.get? i) ∧
    (∀ (resolver : Resolver) (today : Str) (ans : Nat → Str) (cfg : Config) (idx : Nat)
        (content : Str),
      (processFile resolver today ans cfg idx content).res.changed = false →
      (processFile resolver today ans cfg idx content).disk = content) ∧
    (∀ (resolver : Resolver) (today : Str) (ans : Nat → Str) (cfg : Config) (idx : Nat)
        (content : Str),
      (processFile resolver today ans cfg idx content).res.changed = true ↔
        ∃ lg ∈ (processFile resolver today ans cfg idx content).res.logs,
          lg.rewritten = true) ∧
    (∀ (resolver : Resolver) (today : Str) (ans : Nat → Str) (cfg : Config) (idx : Nat)
        (content : Str) (i : Nat) (lg : LineResult),
      resolverWF resolver → mapWF cfg.acceptedMapping → '\n' ∉ today →
      (processFile resolver today ans cfg idx content).res.logs.get? i = some lg →
      lg.rewritten = false →
      (splitLines (processFile resolver today ans cfg idx content).disk).get? i =
        (splitLines content).get? i) := by
  refine ⟨?_, ?_, ?_, ?_, ?_⟩
  · intro resolver today ans cfg idx line h
    obtain ⟨u, sha, hf, _, hline, _⟩ := processLine_rewritten_inv h
    exact ⟨u, sha, hf, by rw [hline, rewriteLine]⟩
  · intro resolver today ans cfg idx lines i lg hlg hrw
    exact processLines_preserve resolver today ans lines cfg idx i lg hlg hrw
  · intro resolver today ans cfg idx content h
    simp only [processFile] at h ⊢
    rw [h, Bool.and_false]
    rfl
  · intro resolver today ans cfg idx content
    simp only [processFile]
    exact processLines_changed_iff resolver today ans _ cfg idx
  · intro resolver today ans cfg idx content i lg hwf hm htoday hlg hrw
    simp only [processFile] at hlg ⊢
    by_cases hcond : ((processLines resolver today ans cfg idx
        (splitLines content)).abortCfg.isNone &&
        (processLines resolver today ans cfg idx (splitLines content)).changed) = true
    · rw [if_pos hcond]
      have hnl : ∀ l ∈ (processLines resolver today ans cfg idx
          (splitLines content)).lines, '\n' ∉ l :=
        (processLines_no_newline hwf htoday _ cfg idx hm
          (splitLines_no_newline content)).1
      have hlen : (processLines resolver today ans cfg idx
          (splitLines content)).lines.length = (splitLines content).length :=
        processLines_length resolver today ans _ cfg idx
      have hne : (processLines resolver today ans cfg idx
          (splitLines content)).lines ≠ [] := by
        intro hc
        apply splitLines_ne_nil content
        rw [hc] at hlen
        exact List.length_eq_zero.mp hlen.symm
      rw [splitLines_joinLines _ hne hnl]
      exact processLines_preserve resolver today ans _ cfg idx i lg hlg hrw
    · rw [if_neg hcond]

/-- Witness for C7: the leading-whitespace part applied to a concrete indented
line rewritten through a "y" answer. -/
theorem claim7_witness :
    ∃ u sha,
      findUsage (str "  uses: o/r@v1") = some u ∧
      (processLine (fun _ _ _ => Except.ok (List.replicate 40 'a')) (str "2024-01-01")
          (fun _ => str "y") ⟨[], []⟩ 0 (str "  uses: o/r@v1")).line =
        leadingWS (str "  uses: o/r@v1") ++ str "uses: " ++ u.owner ++ ['/'] ++ u.repo ++
          ['@'] ++ sha ++ [' '] ++ versionComment u.tag (str "2024-01-01") :=
  claim7_rewrite_frame.1 (fun _ _ _ => Except.ok (List.replicate 40 'a'))
    (str "2024-01-01") (fun _ => str "y") ⟨[], []⟩ 0 (str "  uses: o/r@v1") (by decide)

def shaA : Str := List.replicate 40 'a'

def noResolver : Resolver := fun _ _ _ => Except.error []

def emptyAns : Nat → Str := fun _ => []

def mainCfg : Config := ⟨[], [(mkKey (str "o") (str "r") (str "main"), shaA)]⟩

/-- Counterexample to C8 as stated: for the ref "main" the appended comment is
the plain "#main", not "#main-(today)": only the literal ref "master" gets the
date suffix (src/main.go:620-625). -/
theorem claim8_counterexample :
    (processLine noResolver (str "2024-01-02") emptyAns mainCfg 0
        (str "uses: o/r@main")).rewritten = true ∧
    (processLine noResolver (str "2024-01-02") emptyAns mainCfg 0
        (str "uses: o/r@main")).line = str "uses: o/r@" ++ shaA ++ str " #main" ∧
    (processLine noResolver (str "2024-01-02") emptyAns mainCfg 0
        (str "uses: o/r@main")).line ≠
      str "uses: o/r@" ++ shaA ++ str " #main-2024-01-02" := by
  refine ⟨by decide, by decide, by decide⟩

/-- Claim C8 (amended): for every rewritten line the appended comment is
"#(ref)-(today)" when the ref is the literal "master", and the plain "#(ref)"
for every other ref — including "main", which the code does not date; the date
is the run's current date, recomputed at every rewrite rather than fixed at
the original pin. -/
theorem claim8_amended_comment :
    ∀ (resolver : Resolver) (today : Str) (ans : Nat → Str) (cfg : Config) (idx : Nat)
      (line : Str),
      (processLine resolver today ans cfg idx line).rewritten = true →
      ∃ u sha, findUsage line = some u ∧
        (processLine resolver today ans cfg idx line).line =
          leadingWS line ++ str "uses: " ++ u.owner ++ ['/'] ++ u.repo ++ ['@'] ++ sha ++
            [' '] ++
            (if u.tag = str "master" then ['#'] ++ str "master" ++ ['-'] ++ today
             else ['#'] ++ u.tag) := by
  intro resolver today ans cfg idx line h
  obtain ⟨u, sha, hf, _, hline, _⟩ := processLine_rewritten_inv h
  exact ⟨u, sha, hf, by rw [hline, rewriteLine, versionComment]⟩

/-- Witness for the amended C8: a rewritten master pin carries the run date of
that rewrite. -/
theorem claim8_witness :
    ∃ u sha, findUsage (str "uses: o/r@master") = some u ∧
      (processLine (fun _ _ _ => Except.ok shaA) (str "2025-02-03") (fun _ => str "y")
          ⟨[], []⟩ 0 (str "uses: o/r@master")).line =
        leadingWS (str "uses: o/r@master") ++ str "uses: " ++ u.owner ++ ['/'] ++ u.repo ++
          ['@'] ++ sha ++ [' '] ++
          (if u.tag = str "master" then ['#'] ++ str "master" ++ ['-'] ++ str "2025-02-03"
           else ['#'] ++ u.tag) :=
  claim8_amended_comment (fun _ _ _ => Except.ok shaA) (str "2025-02-03")
    (fun _ => str "y") ⟨[], []⟩ 0 (str "uses: o/r@master") (by decide)

/-! ### Claim C9: an abort persists the whole threaded Config.  The config is
threaded line by line and file by file; a "q" answer captures it, saveConfig
writes it out, and os.Exit(0) stops the run (src/main.go:607-612, 247-252). -/

/-- Config growth: every acceptance (key and sha) of the first config is still
looked up in the second, and every allowed organization of the first is still
allowed in the second. -/
def cfgGrows (c1 c2 : Config) : Prop :=
  (∀ k v, lookupMap c1.acceptedMapping k = some v →
    lookupMap c2.acceptedMapping k = some v) ∧
  (∀ o ∈ c1.allowedOrgs, o ∈ c2.allowedOrgs)

lemma cfgGrows_refl (c : Config) : cfgGrows c c :=
  ⟨fun _ _ h => h, fun _ h => h⟩

lemma cfgGrows_trans {c1 c2 c3 : Config} (h12 : cfgGrows c1 c2)
    (h23 : cfgGrows c2 c3) : cfgGrows c1 c3 :=
  ⟨fun k v h => h23.1 k v (h12.1 k v h), fun o h => h23.2 o (h12.2 o h)⟩

/-- Whatever the user answers, processing one line never removes an acceptance
or an allowed organization: a "y" only inserts a key whose lookup was none, an
"a" only appends an owner. -/
lemma processLine_grows (resolver : Resolver) (today : Str) (ans : Nat → Str)
    (cfg : Config) (idx : Nat) (line : Str) :
    cfgGrows cfg (processLine resolver today ans cfg idx line).cfg := by
  cases hf : findUsage line with
  | none => rw [processLine_none hf]; exact cfgGrows_refl cfg
  | some u =>
    cases hskip : (isAllowedOrg cfg u.owner || isHex40 u.tag) with
    | true => rw [processLine_skip hf hskip]; exact cfgGrows_refl cfg
    | false =>
      cases hl : lookupMap cfg.acceptedMapping (mkKey u.owner u.repo u.tag) with
      | some sha => rw [processLine_cache hf hskip hl]; exact cfgGrows_refl cfg
      | none =>
        cases hres : resolver u.owner u.repo u.tag with
        | error e => rw [processLine_err hf hskip hl hres]; exact cfgGrows_refl cfg
        | ok sha =>
          by_cases hy : normalizeAnswer (ans idx) = str "y"
          · rw [processLine_prompt_y hf hskip hl hres hy]
            refine ⟨?_, fun o h => h⟩
            intro k v hk
            show lookupMap (insertMap cfg.acceptedMapping (mkKey u.owner u.repo u.tag) sha)
              k = some v
            rw [insertMap, lookupMap_cons]
            have hne : ¬(mkKey u.owner u.repo u.tag = k) := by
              intro he
              rw [he, hk] at hl
              exact Option.noConfusion hl
            rw [if_neg hne]
            exact hk
          · by_cases hn : normalizeAnswer (ans idx) = str "n"
            · rw [processLine_prompt_n hf hskip hl hres hn]; exact cfgGrows_refl cfg
            · by_cases haa : normalizeAnswer (ans idx) = str "a"
              · rw [processLine_prompt_a hf hskip hl hres haa]
                exact ⟨fun k v hk => hk, fun o h => List.mem_append_left _ h⟩
              · by_cases hq : normalizeAnswer (ans idx) = str "q"
                · rw [processLine_prompt_q hf hskip hl hres hq]; exact cfgGrows_refl cfg
                · rw [processLine_prompt_other hf hskip hl hres hy hn haa hq]
                  exact cfgGrows_refl cfg

/-- An aborting line consumed an answer that normalizes to "q". -/
lemma processLine_aborted_answer {resolver : Resolver} {today : Str} {ans : Nat → Str}
    {cfg : Config} {idx : Nat} {line : Str}
    (h : (processLine resolver today ans cfg idx line).aborted = true) :
    ∃ a, (processLine resolver today ans cfg idx line).answerUsed = some a ∧
      normalizeAnswer a = str "q" := by
  cases hf : findUsage line with
  | none => rw [processLine_none hf] at h; cases h
  | some u =>
    cases hskip : (isAllowedOrg cfg u.owner || isHex40 u.tag) with
    | true => rw [processLine_skip hf hskip] at h; cases h
    | false =>
      cases hl : lookupMap cfg.acceptedMapping (mkKey u.owner u.repo u.tag) with
      | some sha => rw [processLine_cache hf hskip hl] at h; cases h
      | none =>
        cases hres : resolver u.owner u.repo u.tag with
        | error e => rw [processLine_err hf hskip hl hres] at h; cases h
        | ok sha =>
          by_cases hy : normalizeAnswer (ans idx) = str "y"
          · rw [processLine_prompt_y hf hskip hl hres hy] at h; cases h
          · by_cases hn : normalizeAnswer (ans idx) = str "n"
            · rw [processLine_prompt_n hf hskip hl hres hn] at h; cases h
            · by_cases haa : normalizeAnswer (ans idx) = str "a"
              · rw [processLine_prompt_a hf hskip hl hres haa] at h; cases h
              · by_cases hq : normalizeAnswer (ans idx) = str "q"
                · rw [processLine_prompt_q hf hskip hl hres hq]
                  exact ⟨ans idx, rfl, hq⟩
                · rw [processLine_prompt_other hf hskip hl hres hy hn haa hq] at h
                  cases h

/-- A prompt answered "y" leaves its key in the updated config, bound to the
commit sha the resolver produced for the key's owner/repo/ref triple. -/
lemma processLine_capture_y {resolver : Resolver} {today : Str} {ans : Nat → Str}
    {cfg : Config} {idx : Nat} {line : Str} {k a : Str}
    (hpk : (processLine resolver today ans cfg idx line).promptedKey = some k)
    (hau : (processLine resolver today ans cfg idx line).answerUsed = some a)
    (hna : normalizeAnswer a = str "y") :
    ∃ o r t sha, k = mkKey o r t ∧ resolver o r t = Except.ok sha ∧
      lookupMap (processLine resolver today ans cfg idx line).cfg.acceptedMapping k =
        some sha := by
  cases hf : findUsage line with
  | none => rw [processLine_none hf] at hpk; exact Option.noConfusion hpk
  | some u =>
    cases hskip : (isAllowedOrg cfg u.owner || isHex40 u.tag) with
    | true => rw [processLine_skip hf hskip] at hpk; exact Option.noConfusion hpk
    | false =>
      cases hl : lookupMap cfg.acceptedMapping (mkKey u.owner u.repo u.tag) with
      | some sha => rw [processLine_cache hf hskip hl] at hpk; exact Option.noConfusion hpk
      | none =>
        cases hres : resolver u.owner u.repo u.tag with
        | error e =>
          rw [processLine_err hf hskip hl hres] at hpk
          exact Option.noConfusion hpk
        | ok sha =>
          by_cases hy : normalizeAnswer (ans idx) = str "y"
          · rw [processLine_prompt_y hf hskip hl hres hy] at hpk ⊢
            injection hpk with hk
            refine ⟨u.owner, u.repo, u.tag, sha, hk.symm, hres, ?_⟩
            rw [← hk]
            show lookupMap (insertMap cfg.acceptedMapping (mkKey u.owner u.repo u.tag) sha)
              (mkKey u.owner u.repo u.tag) = some sha
            rw [insertMap, lookupMap_cons, if_pos rfl]
          · have hau' : (processLine resolver today ans cfg idx line).answerUsed
                = some (ans idx) := by
              by_cases hn : normalizeAnswer (ans idx) = str "n"
              · rw [processLine_prompt_n hf hskip hl hres hn]
              · by_cases haa : normalizeAnswer (ans idx) = str "a"
                · rw [processLine_prompt_a hf hskip hl hres haa]
                · by_cases hq : normalizeAnswer (ans idx) = str "q"
                  · rw [processLine_prompt_q hf hskip hl hres hq]
                  · rw [processLine_prompt_other hf hskip hl hres hy hn haa hq]
            rw [hau'] at hau
            injection hau with ha
            rw [← ha] at hna
            exact absurd hna hy

/-- A prompt answered "a" allow-lists the owner of the prompted key: the owner
is in the updated config's allowed organizations. -/
lemma processLine_capture_a {resolver : Resolver} {today : Str} {ans : Nat → Str}
    {cfg : Config} {idx : Nat} {line : Str} {a : Str}
    (hau : (processLine resolver today ans cfg idx line).answerUsed = some a)
    (hna : normalizeAnswer a = str "a") :
    ∃ o r t, (processLine resolver today ans cfg idx line).promptedKey =
        some (mkKey o r t) ∧
      o ∈ (processLine resolver today ans cfg idx line).cfg.allowedOrgs := by
  cases hf : findUsage line with
  | none => rw [processLine_none hf] at hau; exact Option.noConfusion hau
  | some u =>
    cases hskip : (isAllowedOrg cfg u.owner || isHex40 u.tag) with
    | true => rw [processLine_skip hf hskip] at hau; exact Option.noConfusion hau
    | false =>
      cases hl : lookupMap cfg.acceptedMapping (mkKey u.owner u.repo u.tag) with
      | some sha => rw [processLine_cache hf hskip hl] at hau; exact Option.noConfusion hau
      | none =>
        cases hres : resolver u.owner u.repo u.tag with
        | error e =>
          rw [processLine_err hf hskip hl hres] at hau
          exact Option.noConfusion hau
        | ok sha =>
          by_cases haa : normalizeAnswer (ans idx) = str "a"
          · rw [processLine_prompt_a hf hskip hl hres haa]
            refine ⟨u.owner, u.repo, u.tag, rfl, ?_⟩
            show u.owner ∈ cfg.allowedOrgs ++ [u.owner]
            exact List.mem_append_right _ (List.mem_cons_self u.owner [])
          · have hau' : (processLine resolver today ans cfg idx line).answerUsed
                = some (ans idx) := by
              by_cases hy : normalizeAnswer (ans idx) = str "y"
              · rw [processLine_prompt_y hf hskip hl hres hy]
              · by_cases hn : normalizeAnswer (ans idx) = str "n"
                · rw [processLine_prompt_n hf hskip hl hres hn]
                · by_cases hq : normalizeAnswer (ans idx) = str "q"
                  · rw [processLine_prompt_q hf hskip hl hres hq]
                  · rw [processLine_prompt_other hf hskip hl hres hy hn haa hq]
            rw [hau'] at hau
            injection hau with ha
            rw [← ha] at hna
            exact absurd hna haa

/-- The config a file's processing hands on: the one captured at an abort if
the user quit inside the file, the threaded final one otherwise. -/
def endCfg (R : FileResult) : Config := R.abortCfg.getD R.cfg

lemma endCfg_eq (R : FileResult) : endCfg R = R.abortCfg.getD R.cfg := rfl

/-- Along one file the config only grows, and every "y" acceptance and "a"
allow-listing logged for the file is present in the config the file hands on
(the abort-time config if the user quit inside it). -/
lemma processLines_persist (resolver : Resolver) (today : Str) (ans : Nat → Str) :
    ∀ (lines : List Str) (cfg : Config) (idx : Nat),
      cfgGrows cfg (endCfg (processLines resolver today ans cfg idx lines)) ∧
      (∀ lg ∈ (processLines resolver today ans cfg idx lines).logs, ∀ k a,
        lg.promptedKey = some k → lg.answerUsed = some a →
        normalizeAnswer a = str "y" →
        ∃ o r t sha, k = mkKey o r t ∧ resolver o r t = Except.ok sha ∧
          lookupMap
            (endCfg (processLines resolver today ans cfg idx lines)).acceptedMapping k =
            some sha) ∧
      (∀ lg ∈ (processLines resolver today ans cfg idx lines).logs, ∀ a,
        lg.answerUsed = some a → normalizeAnswer a = str "a" →
        ∃ o r t, lg.promptedKey = some (mkKey o r t) ∧
          o ∈ (endCfg (processLines resolver today ans cfg idx lines)).allowedOrgs) := by
  intro lines
  induction lines with
  | nil =>
    intro cfg idx
    rw [processLines_nil]
    refine ⟨cfgGrows_refl cfg, ?_, ?_⟩
    · intro lg hlg; exact absurd hlg (List.not_mem_nil lg)
    · intro lg hlg; exact absurd hlg (List.not_mem_nil lg)
  | cons l ls ih =>
    intro cfg idx
    by_cases hab : (processLine resolver today ans cfg idx l).aborted
    · rw [processLines_cons, if_pos hab]
      obtain ⟨-, hcfg⟩ := processLine_aborted_inv hab
      obtain ⟨aq, hauq, hnq⟩ := processLine_aborted_answer hab
      refine ⟨?_, ?_, ?_⟩
      · show cfgGrows cfg (processLine resolver today ans cfg idx l).cfg
        rw [hcfg]
        exact cfgGrows_refl cfg
      · intro lg hlg k a hpk hau hna
        rcases List.mem_cons.mp hlg with rfl | hlg
        · rw [hauq] at hau
          injection hau with ha
          rw [← ha, hnq] at hna
          exact absurd hna (by decide)
        · exact absurd hlg (List.not_mem_nil lg)
      · intro lg hlg a hau hna
        rcases List.mem_cons.mp hlg with rfl | hlg
        · rw [hauq] at hau
          injection hau with ha
          rw [← ha, hnq] at hna
          exact absurd hna (by decide)
        · exact absurd hlg (List.not_mem_nil lg)
    · rw [processLines_cons, if_neg hab]
      obtain ⟨ihg, ihy, iha⟩ := ih (processLine resolver today ans cfg idx l).cfg
        (processLine resolver today ans cfg idx l).idx
      refine ⟨?_, ?_, ?_⟩
      · exact cfgGrows_trans (processLine_grows resolver today ans cfg idx l) ihg
      · intro lg hlg k a hpk hau hna
        rcases List.mem_cons.mp hlg with rfl | hlg
        · obtain ⟨o, r, t, sha, hk, hres, hlook⟩ := processLine_capture_y hpk hau hna
          exact ⟨o, r, t, sha, hk, hres, ihg.1 k sha hlook⟩
        · exact ihy lg hlg k a hpk hau hna
      · intro lg hlg a hau hna
        rcases List.mem_cons.mp hlg with rfl | hlg
        · obtain ⟨o, r, t, hpk, hmem⟩ := processLine_capture_a hau hna
          exact ⟨o, r, t, hpk, ihg.2 o hmem⟩
        · exact iha lg hlg a hau hna

/-- Whether the run aborts, and with which config.  This mirrors runTool's
control flow (main walks the files in order, src/main.go:648-693): the first
"q" answer captures the threaded config — the very one saveConfig writes just
before os.Exit(0) (src/main.go:607-612) — and none is produced if the run
completes every file. -/
def runAborts (resolver : Resolver) (today : Str) (ans : Nat → Str) :
    Config → Nat → List Str → Option Config
  | _, _, [] => none
  | cfg, idx, f :: fs =>
    let R := processLines resolver today ans cfg idx (splitLines f)
    if R.abortCfg.isSome then R.abortCfg
    else runAborts resolver today ans R.cfg R.idx fs

/-- Every line examined during the run, in order, across files, up to and
including the aborting line when the user quits. -/
def runLogs (resolver : Resolver) (today : Str) (ans : Nat → Str) :
    Config → Nat → List Str → List LineResult
  | _, _, [] => []
  | cfg, idx, f :: fs =>
    let R := processLines resolver today ans cfg idx (splitLines f)
    if R.abortCfg.isSome then R.logs
    else R.logs ++ runLogs resolver today ans R.cfg R.idx fs

lemma runAborts_nil (resolver : Resolver) (today : Str) (ans : Nat → Str)
    (cfg : Config) (idx : Nat) : runAborts resolver today ans cfg idx [] = none := rfl

lemma runAborts_cons (resolver : Resolver) (today : Str) (ans : Nat → Str)
    (cfg : Config) (idx : Nat) (f : Str) (fs : List Str) :
    runAborts resolver today ans cfg idx (f :: fs) =
      if (processLines resolver today ans cfg idx (splitLines f)).abortCfg.isSome then
        (processLines resolver today ans cfg idx (splitLines f)).abortCfg
      else
        runAborts resolver today ans
          (processLines resolver today ans cfg idx (splitLines f)).cfg
          (processLines resolver today ans cfg idx (splitLines f)).idx fs := rfl

lemma runLogs_cons (resolver : Resolver) (today : Str) (ans : Nat → Str)
    (cfg : Config) (idx : Nat) (f : Str) (fs : List Str) :
    runLogs resolver today ans cfg idx (f :: fs) =
      if (processLines resolver today ans cfg idx (splitLines f)).abortCfg.isSome then
        (processLines resolver today ans cfg idx (splitLines f)).logs
      else
        (processLines resolver today ans cfg idx (splitLines f)).logs ++
          runLogs resolver today ans
            (processLines resolver today ans cfg idx (splitLines f)).cfg
            (processLines resolver today ans cfg idx (splitLines f)).idx fs := rfl

lemma runAborts_cons_abort {resolver : Resolver} {today : Str} {ans : Nat → Str}
    {cfg : Config} {idx : Nat} {f : Str} {fs : List Str} {s : Config}
    (hA : (processLines resolver today ans cfg idx (splitLines f)).abortCfg = some s) :
    runAborts resolver today ans cfg idx (f :: fs) = some s := by
  rw [runAborts_cons, hA]
  rfl

lemma runAborts_cons_next {resolver : Resolver} {today : Str} {ans : Nat → Str}
    {cfg : Config} {idx : Nat} {f : Str} {fs : List Str}
    (hA : (processLines resolver today ans cfg idx (splitLines f)).abortCfg = none) :
    runAborts resolver today ans cfg idx (f :: fs) =
      runAborts resolver today ans
        (processLines resolver today ans cfg idx (splitLines f)).cfg
        (processLines resolver today ans cfg idx (splitLines f)).idx fs := by
  rw [runAborts_cons, hA]
  rfl

lemma runLogs_cons_abort {resolver : Resolver} {today : Str} {ans : Nat → Str}
    {cfg : Config} {idx : Nat} {f : Str} {fs : List Str} {s : Config}
    (hA : (processLines resolver today ans cfg idx (splitLines f)).abortCfg = some s) :
    runLogs resolver today ans cfg idx (f :: fs) =
      (processLines resolver today ans cfg idx (splitLines f)).logs := by
  rw [runLogs_cons, hA]
  rfl

lemma runLogs_cons_next {resolver : Resolver} {today : Str} {ans : Nat → Str}
    {cfg : Config} {idx : Nat} {f : Str} {fs : List Str}
    (hA : (processLines resolver today ans cfg idx (splitLines f)).abortCfg = none) :
    runLogs resolver today ans cfg idx (f :: fs) =
      (processLines resolver today ans cfg idx (splitLines f)).logs ++
        runLogs resolver today ans
          (processLines resolver today ans cfg idx (splitLines f)).cfg
          (processLines resolver today ans cfg idx (splitLines f)).idx fs := by
  rw [runLogs_cons, hA]
  rfl

lemma processFile_res (resolver : Resolver) (today : Str) (ans : Nat → Str)
    (cfg : Config) (idx : Nat) (content : Str) :
    (processFile resolver today ans cfg idx content).res =
      processLines resolver today ans cfg idx (splitLines content) := rfl

lemma runTool_cons_abort {resolver : Resolver} {today : Str} {ans : Nat → Str}
    {cfg : Config} {idx : Nat} {f : Str} {fs : List Str} {s : Config}
    (hA : (processLines resolver today ans cfg idx (splitLines f)).abortCfg = some s) :
    runTool resolver today ans cfg idx (f :: fs) =
      ⟨(processFile resolver today ans cfg idx f).disk :: fs, s, 0,
        promptsOf (processLines resolver today ans cfg idx (splitLines f)).logs⟩ := by
  rw [runTool_cons]
  simp only [processFile_res]
  rw [hA]
  rfl

lemma runTool_cons_next {resolver : Resolver} {today : Str} {ans : Nat → Str}
    {cfg : Config} {idx : Nat} {f : Str} {fs : List Str}
    (hA : (processLines resolver today ans cfg idx (splitLines f)).abortCfg = none) :
    runTool resolver today ans cfg idx (f :: fs) =
      ⟨(processFile resolver today ans cfg idx f).disk ::
          (runTool resolver today ans
            (processLines resolver today ans cfg idx (splitLines f)).cfg
            (processLines resolver today ans cfg idx (splitLines f)).idx fs).files,
        (runTool resolver today ans
          (processLines resolver today ans cfg idx (splitLines f)).cfg
          (processLines resolver today ans cfg idx (splitLines f)).idx fs).persisted,
        (runTool resolver today ans
          (processLines resolver today ans cfg idx (splitLines f)).cfg
          (processLines resolver today ans cfg idx (splitLines f)).idx fs).exitCode,
        promptsOf (processLines resolver today ans cfg idx (splitLines f)).logs ++
          (runTool resolver today ans
            (processLines resolver today ans cfg idx (splitLines f)).cfg
            (processLines resolver today ans cfg idx (splitLines f)).idx fs).prompts⟩ := by
  rw [runTool_cons]
  simp only [processFile_res]
  rw [hA]
  rfl

/-- An aborting run persists the config captured at the abort and exits 0. -/
lemma runTool_abort (resolver : Resolver) (today : Str) (ans : Nat → Str) :
    ∀ (files : List Str) (cfg : Config) (idx : Nat) (saved : Config),
      runAborts resolver today ans cfg idx files = some saved →
      (runTool resolver today ans cfg idx files).persisted = saved ∧
      (runTool resolver today ans cfg idx files).exitCode = 0 := by
  intro files
  induction files with
  | nil =>
    intro cfg idx saved h
    rw [runAborts_nil] at h
    exact Option.noConfusion h
  | cons f fs ih =>
    intro cfg idx saved h
    cases hA : (processLines resolver today ans cfg idx (splitLines f)).abortCfg with
    | some s =>
      rw [runAborts_cons_abort hA] at h
      injection h with hs
      rw [runTool_cons_abort hA]
      exact ⟨hs, rfl⟩
    | none =>
      rw [runAborts_cons_next hA] at h
      rw [runTool_cons_next hA]
      exact ih _ _ saved h

/-- The config an aborting run captures extends the starting one, and holds
every "y" acceptance (with its resolved sha) and every "a" allow-listing
logged anywhere in the run. -/
lemma runAborts_persist (resolver : Resolver) (today : Str) (ans : Nat → Str) :
    ∀ (files : List Str) (cfg : Config) (idx : Nat) (saved : Config),
      runAborts resolver today ans cfg idx files = some saved →
      cfgGrows cfg saved ∧
      (∀ lg ∈ runLogs resolver today ans cfg idx files, ∀ k a,
        lg.promptedKey = some k → lg.answerUsed = some a →
        normalizeAnswer a = str "y" →
        ∃ o r t sha, k = mkKey o r t ∧ resolver o r t = Except.ok sha ∧
          lookupMap saved.acceptedMapping k = some sha) ∧
      (∀ lg ∈ runLogs resolver today ans cfg idx files, ∀ a,
        lg.answerUsed = some a → normalizeAnswer a = str "a" →
        ∃ o r t, lg.promptedKey = some (mkKey o r t) ∧ o ∈ saved.allowedOrgs) := by
  intro files
  induction files with
  | nil =>
    intro cfg idx saved h
    rw [runAborts_nil] at h
    exact Option.noConfusion h
  | cons f fs ih =>
    intro cfg idx saved h
    obtain ⟨hg, hyc, hac⟩ := processLines_persist resolver today ans (splitLines f) cfg idx
    cases hA : (processLines resolver today ans cfg idx (splitLines f)).abortCfg with
    | some s =>
      rw [runAborts_cons_abort hA] at h
      injection h with hs
      have hend : endCfg (processLines resolver today ans cfg idx (splitLines f))
          = saved := by
        rw [endCfg_eq, hA, hs]
        rfl
      rw [hend] at hg hyc hac
      refine ⟨hg, ?_, ?_⟩
      · rw [runLogs_cons_abort hA]
        exact hyc
      · rw [runLogs_cons_abort hA]
        exact hac
    | none =>
      rw [runAborts_cons_next hA] at h
      obtain ⟨ihg, ihy, iha⟩ :=
        ih (processLines resolver today ans cfg idx (splitLines f)).cfg
          (processLines resolver today ans cfg idx (splitLines f)).idx saved h
      have hend : endCfg (processLines resolver today ans cfg idx (splitLines f))
          = (processLines resolver today ans cfg idx (splitLines f)).cfg := by
        rw [endCfg_eq, hA]
        rfl
      rw [hend] at hg hyc hac
      refine ⟨cfgGrows_trans hg ihg, ?_, ?_⟩
      · rw [runLogs_cons_next hA]
        intro lg hlg k a hpk hau hna
        rcases List.mem_append.mp hlg with hlg | hlg
        · obtain ⟨o, r, t, sha, hk, hres, hlook⟩ := hyc lg hlg k a hpk hau hna
          exact ⟨o, r, t, sha, hk, hres, ihg.1 k sha hlook⟩
        · exact ihy lg hlg k a hpk hau hna
      · rw [runLogs_cons_next hA]
        intro lg hlg a hau hna
        rcases List.mem_append.mp hlg with hlg | hlg
        · obtain ⟨o, r, t, hpk, hmem⟩ := hac lg hlg a hau hna
          exact ⟨o, r, t, hpk, ihg.2 o hmem⟩
        · exact iha lg hlg a hau hna

/-- Claim C9: whenever the user answers a prompt of the run with the abort
option "q" — in any file, on any line, after any sequence of earlier answers —
the whole Config at that moment is persisted (saveConfig before os.Exit(0),
src/main.go:607-612 and 247-252) and the process exits with status 0: the
persisted config is exactly the one captured at the abort; every acceptance
and allowed organization present when the run started is still in it; every
acceptance confirmed with "y" earlier in the same run is in the persisted
acceptance cache, bound to the commit sha the resolver produced for it; and
every organization allow-listed with "a" earlier in the same run is in the
persisted allow list. -/
theorem claim9_abort_persists :
    ∀ (resolver : Resolver) (today : Str) (ans : Nat → Str) (cfg : Config) (idx : Nat)
      (files : List Str) (saved : Config),
      runAborts resolver today ans cfg idx files = some saved →
      (runTool resolver today ans cfg idx files).persisted = saved ∧
      (runTool resolver today ans cfg idx files).exitCode = 0 ∧
      (∀ k v, lookupMap cfg.acceptedMapping k = some v →
        lookupMap saved.acceptedMapping k = some v) ∧
      (∀ o ∈ cfg.allowedOrgs, o ∈ saved.allowedOrgs) ∧
      (∀ lg ∈ runLogs resolver today ans cfg idx files, ∀ k a,
        lg.promptedKey = some k → lg.answerUsed = some a →
        normalizeAnswer a = str "y" →
        ∃ o r t sha, k = mkKey o r t ∧ resolver o r t = Except.ok sha ∧
          lookupMap saved.acceptedMapping k = some sha) ∧
      (∀ lg ∈ runLogs resolver today ans cfg idx files, ∀ a,
        lg.answerUsed = some a → normalizeAnswer a = str "a" →
        ∃ o r t, lg.promptedKey = some (mkKey o r t) ∧ o ∈ saved.allowedOrgs) := by
  intro resolver today ans cfg idx files saved h
  obtain ⟨hp, he⟩ := runTool_abort resolver today ans files cfg idx saved h
  obtain ⟨hg, hyc, hac⟩ := runAborts_persist resolver today ans files cfg idx saved h
  exact ⟨hp, he, hg.1, hg.2, hyc, hac⟩

def wResolver : Resolver := fun _ _ _ => Except.ok shaA

def wAns : Nat → Str := fun n => if n = 0 then str "y" else if n = 1 then str "a" else str "q"

def wFiles : List Str :=
  [joinLines [str "uses: o/r@v1", str "uses: x/y@v2"], str "uses: p/q@v3"]

def wSaved : Config := ⟨[str "x"], [(mkKey (str "o") (str "r") (str "v1"), shaA)]⟩

/-- Witness for C9: a run whose first file gets a "y" acceptance and then an
"a" allow-listing, and whose second file is answered "q", persists exactly the
config holding that acceptance and that allow-listed owner, and exits 0. -/
theorem claim9_witness :
    (runTool wResolver (str "2024-01-01") wAns ⟨[], []⟩ 0 wFiles).persisted = wSaved ∧
    (runTool wResolver (str "2024-01-01") wAns ⟨[], []⟩ 0 wFiles).exitCode = 0 := by
  have h := claim9_abort_persists wResolver (str "2024-01-01") wAns ⟨[], []⟩ 0 wFiles
    wSaved (by decide)
  exact ⟨h.1, h.2.1⟩

/-! ### Claim C6: running the tool twice.  The second run sees only lines that
are already pinned (or never matched / never resolved), so nothing changes. -/

lemma append_char_inj {ch : Char} :
    ∀ {o o' rest rest' : Str}, ch ∉ o → ch ∉ o' →
      o ++ ch :: rest = o' ++ ch :: rest' → o = o' ∧ rest = rest' := by
  intro o
  induction o with
  | nil =>
    intro o' rest rest' _ ho' h
    cases o' with
    | nil =>
      injection h with _ h2
      exact ⟨rfl, h2⟩
    | cons c' os' =>
      injection h with h1 _
      exact absurd (h1 ▸ List.mem_cons_self c' os') (fun hm => ho' hm)
  | cons c os ih =>
    intro o' rest rest' ho ho' h
    cases o' with
    | nil =>
      injection h with h1 _
      exact absurd (h1 ▸ List.mem_cons_self c os) (fun hm => ho (h1 ▸ hm))
    | cons c' os' =>
      injection h with h1 h2
      obtain ⟨ha, hb⟩ := ih (fun hm => ho (List.mem_cons_of_mem _ hm))
        (fun hm => ho' (List.mem_cons_of_mem _ hm)) h2
      exact ⟨by rw [h1, ha], hb⟩

lemma mkKey_inj {o r t o' r' t' : Str}
    (ho : '/' ∉ o) (ho' : '/' ∉ o') (hr : '@' ∉ r) (hr' : '@' ∉ r')
    (h : mkKey o r t = mkKey o' r' t') : o = o' ∧ r = r' ∧ t = t' := by
  rw [mkKey, mkKey] at h
  have h' : o ++ '/' :: (r ++ '@' :: t) = o' ++ '/' :: (r' ++ '@' :: t') := by
    simpa using h
  obtain ⟨h1, h2⟩ := append_char_inj ho ho' h'
  obtain ⟨h3, h4⟩ := append_char_inj hr hr' h2
  exact ⟨h1, h3, h4⟩

/-- The invariant an all-affirmative run maintains relative to the starting
config cfg0: the allow list never changes; every starting cache entry is kept;
every cache entry is either a starting one or a well-formed accepted
resolution; all cached ids are hex. -/
def RunInv (resolver : Resolver) (cfg0 cfg : Config) : Prop :=
  cfg.allowedOrgs = cfg0.allowedOrgs ∧
  (∀ k v, lookupMap cfg0.acceptedMapping k = some v →
    lookupMap cfg.acceptedMapping k = some v) ∧
  (∀ k v, lookupMap cfg.acceptedMapping k = some v →
    lookupMap cfg0.acceptedMapping k = some v ∨
    ∃ o r t, k = mkKey o r t ∧ '/' ∉ o ∧ '@' ∉ r ∧ resolver o r t = Except.ok v) ∧
  mapWF cfg.acceptedMapping

lemma RunInv.refl {resolver : Resolver} {cfg0 : Config} (hm : mapWF cfg0.acceptedMapping) :
    RunInv resolver cfg0 cfg0 :=
  ⟨rfl, fun _ _ h => h, fun _ _ h => Or.inl h, hm⟩

/-- A line no later processing (same resolver) will prompt for, rewrite, or
derive state from. -/
def inert (resolver : Resolver) (cfg : Config) (l : Str) : Prop :=
  ∀ (today : Str) (ans : Nat → Str) (idx : Nat),
    (processLine resolver today ans cfg idx l).line = l ∧
    (processLine resolver today ans cfg idx l).rewritten = false ∧
    (processLine resolver today ans cfg idx l).cfg = cfg ∧
    (processLine resolver today ans cfg idx l).idx = idx ∧
    (processLine resolver today ans cfg idx l).promptedKey = none ∧
    (processLine resolver today ans cfg idx l).aborted = false

lemma inert_of_eq {resolver : Resolver} {cfg : Config} {l : Str}
    (h : ∀ (today : Str) (ans : Nat → Str) (idx : Nat), ∃ rc : Bool,
      processLine resolver today ans cfg idx l =
        ⟨l, false, cfg, idx, none, none, rc, false, false⟩) :
    inert resolver cfg l := by
  intro today ans idx
  obtain ⟨rc, hrec⟩ := h today ans idx
  rw [hrec]
  exact ⟨rfl, rfl, rfl, rfl, rfl, rfl⟩

lemma isAllowedOrg_congr {cfg cfg' : Config} (h : cfg.allowedOrgs = cfg'.allowedOrgs)
    (o : Str) : isAllowedOrg cfg o = isAllowedOrg cfg' o := by
  rw [isAllowedOrg, isAllowedOrg, h]

/-- One step of an all-affirmative run: never aborts, preserves the invariant,
and produces a line that is inert under any invariant-satisfying config. -/
lemma run1_step {resolver : Resolver} {cfg0 : Config} (hwf : resolverWF resolver)
    {today : Str} {ans : Nat → Str} (hy : ∀ n, normalizeAnswer (ans n) = str "y")
    {cfg : Config} (hinv : RunInv resolver cfg0 cfg) (idx : Nat) (line : Str) :
    (processLine resolver today ans cfg idx line).aborted = false ∧
    RunInv resolver cfg0 (processLine resolver today ans cfg idx line).cfg ∧
    (∀ cfg', RunInv resolver cfg0 cfg' →
      inert resolver cfg' (processLine resolver today ans cfg idx line).line) := by
  cases hf : findUsage line with
  | none =>
    have hstep := @processLine_none resolver today ans cfg idx line hf
    have hline : (processLine resolver today ans cfg idx line).line = line := by
      rw [hstep]
    refine ⟨by rw [hstep], by rw [hstep]; exact hinv, ?_⟩
    intro cfg' _
    rw [hline]
    apply inert_of_eq
    intro today2 ans2 idx2
    exact ⟨false, processLine_none hf⟩
  | some u =>
    cases hskip : (isAllowedOrg cfg u.owner || isHex40 u.tag) with
    | true =>
      have hstep := @processLine_skip resolver today ans cfg idx line u hf hskip
      have hline : (processLine resolver today ans cfg idx line).line = line := by
        rw [hstep]
      refine ⟨by rw [hstep], by rw [hstep]; exact hinv, ?_⟩
      intro cfg' hinv'
      rw [hline]
      apply inert_of_eq
      intro today2 ans2 idx2
      refine ⟨false, processLine_skip hf ?_⟩
      rw [isAllowedOrg_congr (hinv'.1.trans hinv.1.symm) u.owner]
      exact hskip
    | false =>
      have hprops := findUsage_props _ _ hf
      cases hl : lookupMap cfg.acceptedMapping (mkKey u.owner u.repo u.tag) with
      | some sha =>
        have hstep := @processLine_cache resolver today ans cfg idx line u sha hf hskip hl
        have hline : (processLine resolver today ans cfg idx line).line =
            rewriteLine line u.owner u.repo sha u.tag today := by
          rw [hstep]
        have hhex : isHex40 sha = true := hinv.2.2.2 _ _ hl
        have hparse : findUsage (rewriteLine line u.owner u.repo sha u.tag today) =
            some ⟨u.owner, u.repo, sha⟩ :=
          findUsage_rewriteLine line u.owner u.repo sha u.tag today
            hprops.1 hprops.2.2.1 hprops.2.2.2.1 hprops.2.2.2.2.1 hhex
        refine ⟨by rw [hstep], by rw [hstep]; exact hinv, ?_⟩
        intro cfg' _
        rw [hline]
        apply inert_of_eq
        intro today2 ans2 idx2
        exact ⟨false, pinned_inert hparse hhex resolver today2 ans2 cfg' idx2⟩
      | none =>
        cases hres : resolver u.owner u.repo u.tag with
        | error e =>
          have hstep := @processLine_err resolver today ans cfg idx line u e hf hskip hl hres
          have hline : (processLine resolver today ans cfg idx line).line = line := by
            rw [hstep]
          refine ⟨by rw [hstep], by rw [hstep]; exact hinv, ?_⟩
          intro cfg' hinv'
          rw [hline]
          apply inert_of_eq
          intro today2 ans2 idx2
          have hskip' : (isAllowedOrg cfg' u.owner || isHex40 u.tag) = false := by
            rw [isAllowedOrg_congr (hinv'.1.trans hinv.1.symm) u.owner]
            exact hskip
          have hl' : lookupMap cfg'.acceptedMapping (mkKey u.owner u.repo u.tag) = none := by
            cases hlv : lookupMap cfg'.acceptedMapping (mkKey u.owner u.repo u.tag) with
            | none => rfl
            | some v =>
              exfalso
              rcases hinv'.2.2.1 _ _ hlv with h0 | ⟨o', r', t', hk, ho', hr', hok⟩
              · have hcc := hinv.2.1 _ _ h0
                rw [hl] at hcc
                cases hcc
              · obtain ⟨h1, h2, h3⟩ := mkKey_inj hprops.1 ho' hprops.2.2.2.1 hr' hk
                rw [← h1, ← h2, ← h3, hres] at hok
                cases hok
          exact ⟨true, processLine_err hf hskip' hl' hres⟩
        | ok sha =>
          have hstep := @processLine_prompt_y resolver today ans cfg idx line u sha
            hf hskip hl hres (hy idx)
          have hline : (processLine resolver today ans cfg idx line).line =
              rewriteLine line u.owner u.repo sha u.tag today := by
            rw [hstep]
          have hcfg : (processLine resolver today ans cfg idx line).cfg =
              { cfg with acceptedMapping :=
                insertMap cfg.acceptedMapping (mkKey u.owner u.repo u.tag) sha } := by
            rw [hstep]
          have hhex : isHex40 sha = true := hwf _ _ _ _ hres
          have hparse : findUsage (rewriteLine line u.owner u.repo sha u.tag today) =
              some ⟨u.owner, u.repo, sha⟩ :=
            findUsage_rewriteLine line u.owner u.repo sha u.tag today
              hprops.1 hprops.2.2.1 hprops.2.2.2.1 hprops.2.2.2.2.1 hhex
          refine ⟨by rw [hstep], ?_, ?_⟩
          · rw [hcfg]
            refine ⟨hinv.1, ?_, ?_, ?_⟩
            · intro k v hkv
              show lookupMap (insertMap cfg.acceptedMapping
                (mkKey u.owner u.repo u.tag) sha) k = some v
              rw [insertMap, lookupMap]
              by_cases hk : mkKey u.owner u.repo u.tag = k
              · exfalso
                have hcc := hinv.2.1 _ _ hkv
                rw [← hk, hl] at hcc
                cases hcc
              · rw [if_neg hk]
                exact hinv.2.1 _ _ hkv
            · intro k v hkv
              have hkv' : lookupMap (insertMap cfg.acceptedMapping
                  (mkKey u.owner u.repo u.tag) sha) k = some v := hkv
              rw [insertMap, lookupMap] at hkv'
              by_cases hk : mkKey u.owner u.repo u.tag = k
              · rw [if_pos hk] at hkv'
                injection hkv' with hkv'
                right
                exact ⟨u.owner, u.repo, u.tag, hk.symm, hprops.1, hprops.2.2.2.1,
                  by rw [hres, hkv']⟩
              · rw [if_neg hk] at hkv'
                exact hinv.2.2.1 _ _ hkv'
            · intro k v hkv
              have hkv' : lookupMap (insertMap cfg.acceptedMapping
                  (mkKey u.owner u.repo u.tag) sha) k = some v := hkv
              rw [insertMap, lookupMap] at hkv'
              by_cases hk : mkKey u.owner u.repo u.tag = k
              · rw [if_pos hk] at hkv'
                injection hkv' with hkv'
                rw [← hkv']
                exact hhex
              · rw [if_neg hk] at hkv'
                exact hinv.2.2.2 _ _ hkv'
          · intro cfg' _
            rw [hline]
            apply inert_of_eq
            intro today2 ans2 idx2
            exact ⟨false, pinned_inert hparse hhex resolver today2 ans2 cfg' idx2⟩

/-- An all-affirmative per-file pass: no abort, the invariant is preserved,
newline-freedom is kept, every resulting line is inert under any
invariant-satisfying config, an unchanged pass keeps the lines, and the line
count is kept. -/
lemma run1_lines {resolver : Resolver} {cfg0 : Config} (hwf : resolverWF resolver)
    {today : Str} {ans : Nat → Str} (hy : ∀ n, normalizeAnswer (ans n) = str "y")
    (htoday : '\n' ∉ today) :
    ∀ (lines : List Str) (cfg : Config) (idx : Nat), RunInv resolver cfg0 cfg →
      (∀ l ∈ lines, '\n' ∉ l) →
      (processLines resolver today ans cfg idx lines).abortCfg = none ∧
      RunInv resolver cfg0 (processLines resolver today ans cfg idx lines).cfg ∧
      (∀ l ∈ (processLines resolver today ans cfg idx lines).lines, '\n' ∉ l) ∧
      (∀ cfg', RunInv resolver cfg0 cfg' →
        ∀ l ∈ (processLines resolver today ans cfg idx lines).lines,
          inert resolver cfg' l) ∧
      ((processLines resolver today ans cfg idx lines).changed = false →
        (processLines resolver today ans cfg idx lines).lines = lines) := by
  intro lines
  induction lines with
  | nil =>
    intro cfg idx hinv _
    rw [processLines_nil]
    refine ⟨rfl, hinv, ?_, ?_, fun _ => rfl⟩
    · intro l hl; cases hl
    · intro cfg' _ l hl; cases hl
  | cons l ls ih =>
    intro cfg idx hinv hnl
    obtain ⟨hab, hinv1, hinert1⟩ := run1_step hwf hy hinv idx l
    rw [processLines_cons, if_neg (by rw [hab]; exact Bool.false_ne_true)]
    obtain ⟨ih1, ih2, ih3, ih4, ih5⟩ := ih (processLine resolver today ans cfg idx l).cfg
      (processLine resolver today ans cfg idx l).idx hinv1
      (fun d hd => hnl d (List.mem_cons_of_mem _ hd))
    have hnl0 : '\n' ∉ (processLine resolver today ans cfg idx l).line :=
      processLine_no_newline hwf hinv.2.2.2 (hnl l (List.mem_cons_self _ _)) htoday
    refine ⟨ih1, ih2, ?_, ?_, ?_⟩
    · intro d hd
      rcases List.mem_cons.mp hd with rfl | hd
      · exact hnl0
      · exact ih3 d hd
    · intro cfg' hinv' d hd
      rcases List.mem_cons.mp hd with rfl | hd
      · exact hinert1 cfg' hinv'
      · exact ih4 cfg' hinv' d hd
    · intro hch
      rw [Bool.or_eq_false_iff] at hch
      have hlr : (processLine resolver today ans cfg idx l).line = l :=
        processLine_not_rewritten_line hch.1
      rw [hlr, ih5 hch.2]

/-- Processing a list of inert lines is the identity: same lines, no change,
no prompt, no config or cursor movement, no abort. -/
lemma inert_lines {resolver : Resolver} :
    ∀ (lines : List Str) (cfg' : Config) (idx : Nat) (today2 : Str) (ans2 : Nat → Str),
      (∀ l ∈ lines, inert resolver cfg' l) →
      (processLines resolver today2 ans2 cfg' idx lines).lines = lines ∧
      (processLines resolver today2 ans2 cfg' idx lines).changed = false ∧
      (processLines resolver today2 ans2 cfg' idx lines).cfg = cfg' ∧
      (processLines resolver today2 ans2 cfg' idx lines).idx = idx ∧
      (processLines resolver today2 ans2 cfg' idx lines).abortCfg = none ∧
      promptsOf (processLines resolver today2 ans2 cfg' idx lines).logs = [] := by
  intro lines
  induction lines with
  | nil =>
    intro cfg' idx today2 ans2 _
    rw [processLines_nil]
    exact ⟨rfl, rfl, rfl, rfl, rfl, rfl⟩
  | cons l ls ih =>
    intro cfg' idx today2 ans2 hin
    obtain ⟨e1, e2, e3, e4, e5, e6⟩ := hin l (List.mem_cons_self _ _) today2 ans2 idx
    rw [processLines_cons, if_neg (by rw [e6]; exact Bool.false_ne_true)]
    rw [e1, e2, e3, e4]
    obtain ⟨i1, i2, i3, i4, i5, i6⟩ := ih cfg' idx today2 ans2
      (fun d hd => hin d (List.mem_cons_of_mem _ hd))
    refine ⟨?_, ?_, i3, i4, i5, ?_⟩
    · show l :: (processLines resolver today2 ans2 cfg' idx ls).lines = l :: ls
      rw [i1]
    · show (false || (processLines resolver today2 ans2 cfg' idx ls).changed) = false
      rw [i2]
      rfl
    · show promptsOf (processLine resolver today2 ans2 cfg' idx l ::
        (processLines resolver today2 ans2 cfg' idx ls).logs) = []
      rw [promptsOf, List.filterMap_cons_none, ← promptsOf, i6]
      exact e5

/-- An all-affirmative whole-tool run: exit 0, the invariant holds of the
persisted config, and every line of every written file is inert under any
invariant-satisfying config. -/
lemma run1_tool {resolver : Resolver} {cfg0 : Config} (hwf : resolverWF resolver)
    {today : Str} {ans : Nat → Str} (hy : ∀ n, normalizeAnswer (ans n) = str "y")
    (htoday : '\n' ∉ today) :
    ∀ (files : List Str) (cfg : Config) (idx : Nat), RunInv resolver cfg0 cfg →
      RunInv resolver cfg0 (runTool resolver today ans cfg idx files).persisted ∧
      (∀ cfg', RunInv resolver cfg0 cfg' →
        ∀ f ∈ (runTool resolver today ans cfg idx files).files,
          ∀ l ∈ splitLines f, inert resolver cfg' l) ∧
      (runTool resolver today ans cfg idx files).exitCode = 0 := by
  intro files
  induction files with
  | nil =>
    intro cfg idx hinv
    refine ⟨hinv, ?_, rfl⟩
    intro cfg' _ f hf
    cases hf
  | cons f fs ih =>
    intro cfg idx hinv
    obtain ⟨hna, hinvR, hnlR, hinertR, hchR⟩ := run1_lines hwf hy htoday
      (splitLines f) cfg idx hinv (splitLines_no_newline f)
    have habort : (processFile resolver today ans cfg idx f).res.abortCfg = none := hna
    have hdiskinert : ∀ cfg', RunInv resolver cfg0 cfg' →
        ∀ l ∈ splitLines (processFile resolver today ans cfg idx f).disk,
          inert resolver cfg' l := by
      intro cfg' hinv'
      show ∀ l ∈ splitLines (if (processLines resolver today ans cfg idx
          (splitLines f)).abortCfg.isNone &&
          (processLines resolver today ans cfg idx (splitLines f)).changed then
            joinLines (processLines resolver today ans cfg idx (splitLines f)).lines
          else f), inert resolver cfg' l
      rw [hna]
      simp only [Option.isNone_none, Bool.true_and]
      cases hch : (processLines resolver today ans cfg idx (splitLines f)).changed with
      | true =>
        rw [if_pos rfl]
        have hne : (processLines resolver today ans cfg idx (splitLines f)).lines ≠ [] := by
          intro hc
          apply splitLines_ne_nil f
          have hlen := processLines_length resolver today ans (splitLines f) cfg idx
          rw [hc] at hlen
          exact List.length_eq_zero.mp hlen.symm
        rw [splitLines_joinLines _ hne hnlR]
        exact hinertR cfg' hinv'
      | false =>
        rw [if_neg Bool.false_ne_true]
        intro l hl
        apply hinertR cfg' hinv'
        rw [hchR hch]
        exact hl
    have hcond2 : ¬((processFile resolver today ans cfg idx f).res.abortCfg.isSome = true) := by
      rw [habort]
      exact Bool.false_ne_true
    rw [runTool_cons, if_neg hcond2]
    have hcfgeq : (processFile resolver today ans cfg idx f).res.cfg =
        (processLines resolver today ans cfg idx (splitLines f)).cfg := rfl
    obtain ⟨t1, t2, t3⟩ := ih (processFile resolver today ans cfg idx f).res.cfg
      (processFile resolver today ans cfg idx f).res.idx (hcfgeq ▸ hinvR)
    refine ⟨t1, ?_, t3⟩
    intro cfg' hinv' g hg
    rcases List.mem_cons.mp hg with rfl | hg
    · exact hdiskinert cfg' hinv'
    · exact t2 cfg' hinv' g hg

/-- A whole-tool pass over files made entirely of inert lines does nothing:
files, config, exit code and prompts are exactly the identity outcome. -/
lemma run2_tool {resolver : Resolver} :
    ∀ (files : List Str) (cfg2 : Config) (idx2 : Nat) (today2 : Str) (ans2 : Nat → Str),
      (∀ f ∈ files, ∀ l ∈ splitLines f, inert resolver cfg2 l) →
      runTool resolver today2 ans2 cfg2 idx2 files = ⟨files, cfg2, 0, []⟩ := by
  intro files
  induction files with
  | nil => intro cfg2 idx2 today2 ans2 _; rfl
  | cons f fs ih =>
    intro cfg2 idx2 today2 ans2 hin
    obtain ⟨i1, i2, i3, i4, i5, i6⟩ := inert_lines (splitLines f) cfg2 idx2 today2 ans2
      (hin f (List.mem_cons_self _ _))
    have habort : (processFile resolver today2 ans2 cfg2 idx2 f).res.abortCfg = none := i5
    have hdisk : (processFile resolver today2 ans2 cfg2 idx2 f).disk = f := by
      show (if (processLines resolver today2 ans2 cfg2 idx2
          (splitLines f)).abortCfg.isNone &&
          (processLines resolver today2 ans2 cfg2 idx2 (splitLines f)).changed then
            joinLines (processLines resolver today2 ans2 cfg2 idx2 (splitLines f)).lines
          else f) = f
      rw [i2, Bool.and_false, if_neg Bool.false_ne_true]
    have hcond2 : ¬((processFile resolver today2 ans2 cfg2 idx2 f).res.abortCfg.isSome
        = true) := by
      rw [habort]
      exact Bool.false_ne_true
    rw [runTool_cons, if_neg hcond2]
    have hc : (processFile resolver today2 ans2 cfg2 idx2 f).res.cfg = cfg2 := i3
    have hi : (processFile resolver today2 ans2 cfg2 idx2 f).res.idx = idx2 := i4
    rw [hdisk, hc, hi, ih cfg2 idx2 today2 ans2 (fun g hg => hin g (List.mem_cons_of_mem _ hg))]
    have hp : promptsOf (processFile resolver today2 ans2 cfg2 idx2 f).res.logs = [] := i6
    rw [hp]
    rfl

/-- Claim C6 (amended): after a run in which every prompt was answered
affirmatively, a second run over the produced files (same remote: no new
commits or tags) shows no prompts and changes nothing at all: every rewritten
line now carries a full-hex ref and is skipped at the already-pinned check, so
— contrary to the original claim — even for master/main refs the date token in
the comment is not refreshed; the second run exits 0 and persists the same
config.  Hypotheses: the remote returns 40-hex ids, the starting cache values
are 40-hex, and the date string contains no newline. -/
theorem claim6_second_run_noop :
    ∀ (resolver : Resolver) (today1 today2 : Str) (ans1 ans2 : Nat → Str)
      (cfg0 : Config) (idx1 idx2 : Nat) (files : List Str),
      resolverWF resolver →
      (∀ n, normalizeAnswer (ans1 n) = str "y") →
      mapWF cfg0.acceptedMapping →
      '\n' ∉ today1 →
      runTool resolver today2 ans2
          (runTool resolver today1 ans1 cfg0 idx1 files).persisted idx2
          (runTool resolver today1 ans1 cfg0 idx1 files).files =
        ⟨(runTool resolver today1 ans1 cfg0 idx1 files).files,
          (runTool resolver today1 ans1 cfg0 idx1 files).persisted, 0, []⟩ := by
  intro resolver today1 today2 ans1 ans2 cfg0 idx1 idx2 files hwf hy hm htoday
  obtain ⟨t1, t2, _⟩ := run1_tool hwf hy htoday files cfg0 idx1 (RunInv.refl hm)
  exact run2_tool _ _ _ _ _ (t2 _ t1)

/-- Witness for the amended C6: a concrete master pin accepted in run one is
left untouched by run two on a later date, with no prompts and exit 0. -/
theorem claim6_witness :
    runTool (fun _ _ _ => Except.ok shaA) (str "2025-05-05") (fun _ => str "n")
        (runTool (fun _ _ _ => Except.ok shaA) (str "2024-01-01") (fun _ => str "y")
          ⟨[], []⟩ 0 [str "uses: o/r@master"]).persisted 0
        (runTool (fun _ _ _ => Except.ok shaA) (str "2024-01-01") (fun _ => str "y")
          ⟨[], []⟩ 0 [str "uses: o/r@master"]).files =
      ⟨(runTool (fun _ _ _ => Except.ok shaA) (str "2024-01-01") (fun _ => str "y")
          ⟨[], []⟩ 0 [str "uses: o/r@master"]).files,
        (runTool (fun _ _ _ => Except.ok shaA) (str "2024-01-01") (fun _ => str "y")
          ⟨[], []⟩ 0 [str "uses: o/r@master"]).persisted, 0, []⟩ :=
  claim6_second_run_noop (fun _ _ _ => Except.ok shaA) (str "2024-01-01")
    (str "2025-05-05") (fun _ => str "y") (fun _ => str "n") ⟨[], []⟩ 0 0
    [str "uses: o/r@master"]
    (by intro o r t s h; injection h with h; rw [← h]; decide)
    (fun _ => (by decide : normalizeAnswer (str "y") = str "y"))
    (by intro k v h; cases h) (by decide)

def cexResolver : Resolver := fun o r t =>
  if o = str "o" then
    (if r = str "r" then
      (if t = str "master" then Except.ok shaA else Except.error [])
     else Except.error [])
  else Except.error []

/-- Counterexample to C6 as stated: a master-pinned line accepted in run one
keeps its run-one date token in run two (run under a later date); the second
run changes nothing, whereas the claim predicts the date token alone would
change to the new date. -/
theorem claim6_counterexample :
    (runTool cexResolver (str "2024-01-01") (fun _ => str "y") ⟨[], []⟩ 0
        [str "uses: o/r@master"]).files =
      [str "uses: o/r@" ++ shaA ++ str " #master-2024-01-01"] ∧
    (runTool cexResolver (str "2025-05-05") (fun _ => str "y")
        (runTool cexResolver (str "2024-01-01") (fun _ => str "y") ⟨[], []⟩ 0
          [str "uses: o/r@master"]).persisted 0
        (runTool cexResolver (str "2024-01-01") (fun _ => str "y") ⟨[], []⟩ 0
          [str "uses: o/r@master"]).files).files =
      [str "uses: o/r@" ++ shaA ++ str " #master-2024-01-01"] ∧
    [str "uses: o/r@" ++ shaA ++ str " #master-2024-01-01"] ≠
      [str "uses: o/r@" ++ shaA ++ str " #master-2025-05-05"] := by
  refine ⟨by decide, by decide, by decide⟩

end PMW
